import Mathlib

/-!
A shallow embedding of the SymTable library: the chained hash table with
dynamic resizing (`symtablehash.c`, enhanced version) and the
singly-linked-list variant (`symtablelist.c`), together with proofs of
the specification's claims about them.

Modelling conventions:
* a C string key is the list of its character codes (`Key := List Nat`);
* the opaque `const void *` value is a type parameter `V`; the NULL
  "absent" result of `get`, `replace` and `remove` is `Option.none`;
* the bucket array is a `List` of collision chains; each chain is the
  `List` of its nodes from head to tail;
* `size_t` and `unsigned int` quantities are `Nat`, with wraparound
  taken explicitly modulo `2 ^ 32` where the C type makes it happen;
* allocation is assumed to succeed except where a claim is about an
  allocation-failure path: the `calloc` inside the resize procedure
  gets an explicit `allocOk` flag, because the specification speaks
  about a failed resize allocation being non-fatal.
-/

set_option maxRecDepth 8192

namespace SymTableSpec

/-- A C string key, as the list of its character codes. -/
abbrev Key := List Nat

/-- The C `struct SymTableNode` without the `psNextNode` pointer: one binding.
The chain pointer is modelled by membership in a `List`. -/
structure SymTableNode (V : Type) where
  pcKey : Key
  pvValue : V
deriving DecidableEq

/-- The C array `static const size_t primes[]`: the fixed ascending prime capacities. -/
def primes : List Nat :=
  [509, 1021, 2039, 4093, 8191, 16381, 32771, 65537, 131071, 262147]

/-- The constant `PRIME_COUNT`: the number of entries of `primes`. -/
def PRIME_COUNT : Nat := primes.length

/-- The constant `HASH_SHIFT_AMOUNT`: the left-shift amount of the hash function. -/
def HASH_SHIFT_AMOUNT : Nat := 5

/-- C `unsigned int` arithmetic wraps modulo `2 ^ 32`. -/
def UINT_MOD : Nat := 2 ^ 32

/-- The `while` loop of `symtablehash_hashFunction`:
`hash = (hash << HASH_SHIFT_AMOUNT) + (unsigned int)(*pcKey++);`
on the `unsigned int` accumulator `hash`. -/
def hashLoop (hash : Nat) : Key → Nat
  | [] => hash
  | c :: rest => hashLoop (((hash <<< HASH_SHIFT_AMOUNT) + c) % UINT_MOD) rest

/-- The function `symtablehash_hashFunction`: hash the key, then reduce it modulo the
current number of buckets (`return hash % bucketCount;`). -/
def symtablehash_hashFunction (pcKey : Key) (bucketCount : Nat) : Nat :=
  hashLoop 0 pcKey % bucketCount

/-- The C `struct SymTable` of `symtablehash.c`. -/
structure SymTable (V : Type) where
  buckets : List (List (SymTableNode V))
  bucketCount : Nat
  nodeQuantity : Nat
  currentPrimeIndex : Nat
deriving DecidableEq

variable {V E : Type}

/-- The function `SymTable_new`: empty table at the smallest prime capacity; the
bucket array is `calloc`ed, so every chain starts out empty. -/
def SymTable_new (V : Type) : SymTable V :=
  { buckets := List.replicate (primes.getD 0 0) []
    bucketCount := primes.getD 0 0
    nodeQuantity := 0
    currentPrimeIndex := 0 }

/-- The function `SymTable_getLength`: `return oSymTable->nodeQuantity;`. -/
def SymTable_getLength (t : SymTable V) : Nat := t.nodeQuantity

/-- The chain walk of `SymTable_get`:
`while (psCurrentNode != NULL) { if (strcmp(pcKey, psCurrentNode->pcKey) == 0) return ...; }`. -/
def chainGet (pcKey : Key) : List (SymTableNode V) → Option V
  | [] => none
  | node :: rest =>
    if node.pcKey = pcKey then some node.pvValue else chainGet pcKey rest

/-- The chain walk of `SymTable_contains` and of `SymTable_put`'s
duplicate check. -/
def chainContains (pcKey : Key) : List (SymTableNode V) → Bool
  | [] => false
  | node :: rest =>
    if node.pcKey = pcKey then true else chainContains pcKey rest

/-- The chain walk of `SymTable_replace`: at the first node whose key
matches, save the old value and overwrite `pvValue` in place. -/
def chainReplace (pcKey : Key) (pvValue : V) :
    List (SymTableNode V) → Option V × List (SymTableNode V)
  | [] => (none, [])
  | node :: rest =>
    if node.pcKey = pcKey then
      (some node.pvValue, { node with pvValue := pvValue } :: rest)
    else
      let r := chainReplace pcKey pvValue rest
      (r.1, node :: r.2)

/-- The chain walk of `SymTable_remove`: at the first node whose key
matches, save the old value and unlink the node (the explicit
`psPrevNode` pointer surgery of the source). -/
def chainRemove (pcKey : Key) :
    List (SymTableNode V) → Option V × List (SymTableNode V)
  | [] => (none, [])
  | node :: rest =>
    if node.pcKey = pcKey then (some node.pvValue, rest)
    else
      let r := chainRemove pcKey rest
      (r.1, node :: r.2)

/-- The body of the rehashing loop of `symtablehash_resizeHashTable`:
recompute the node's index under the new bucket count and push the node
onto the head of the corresponding new chain. -/
def rehashNode (newBucketCount : Nat) (newBuckets : List (List (SymTableNode V)))
    (node : SymTableNode V) : List (List (SymTableNode V)) :=
  let newIndex := symtablehash_hashFunction node.pcKey newBucketCount
  newBuckets.set newIndex (node :: newBuckets.getD newIndex [])

/-- The function `symtablehash_resizeHashTable`.  `allocOk` models whether the
`calloc` of the new bucket array succeeds; on failure, and when the
prime sequence is exhausted, the function returns with the table
unchanged.  The rehashing loop walks the old buckets in index order and
each chain from head to tail. -/
def symtablehash_resizeHashTable (allocOk : Bool) (t : SymTable V) : SymTable V :=
  let newPrimeIndex := t.currentPrimeIndex + 1
  if newPrimeIndex ≥ PRIME_COUNT then t
  else if allocOk = false then t
  else
    let newBucketCount := primes.getD newPrimeIndex 0
    let newBuckets := t.buckets.foldl
      (fun nb chain => chain.foldl (rehashNode newBucketCount) nb)
      (List.replicate newBucketCount [])
    { buckets := newBuckets
      bucketCount := newBucketCount
      nodeQuantity := t.nodeQuantity
      currentPrimeIndex := newPrimeIndex }

/-- The function `SymTable_put`.  The load-factor test of the source is
`(double)oSymTable->nodeQuantity / oSymTable->bucketCount > 0.75`; for
every bucket count in `primes` (all far below `2 ^ 53`) the IEEE double
comparison decides exactly the rational inequality `n / c > 3 / 4`,
i.e. `4 * n > 3 * c`, which is how it is written here.  The resize is
attempted before the duplicate-key check, exactly as in the source; the
node and key allocations of a successful insertion are modelled as
succeeding. -/
def SymTable_put (allocOk : Bool) (t : SymTable V) (pcKey : Key) (pvValue : V) :
    Nat × SymTable V :=
  let t1 := if 4 * t.nodeQuantity > 3 * t.bucketCount
    then symtablehash_resizeHashTable allocOk t
    else t
  let index := symtablehash_hashFunction pcKey t1.bucketCount
  if chainContains pcKey (t1.buckets.getD index []) then (0, t1)
  else
    (1, { buckets := t1.buckets.set index (⟨pcKey, pvValue⟩ :: t1.buckets.getD index [])
          bucketCount := t1.bucketCount
          nodeQuantity := t1.nodeQuantity + 1
          currentPrimeIndex := t1.currentPrimeIndex })

/-- The function `SymTable_contains` (C `int` result: 1 found, 0 not found). -/
def SymTable_contains (t : SymTable V) (pcKey : Key) : Nat :=
  if chainContains pcKey
      (t.buckets.getD (symtablehash_hashFunction pcKey t.bucketCount) [])
  then 1 else 0

/-- The function `SymTable_get`: `none` is the NULL "absent" result. -/
def SymTable_get (t : SymTable V) (pcKey : Key) : Option V :=
  chainGet pcKey
    (t.buckets.getD (symtablehash_hashFunction pcKey t.bucketCount) [])

/-- The function `SymTable_replace`: result value and resulting table.  The bucket
array is only written through when a matching node exists (the source
mutates the found node in place and otherwise touches nothing). -/
def SymTable_replace (t : SymTable V) (pcKey : Key) (pvValue : V) :
    Option V × SymTable V :=
  let index := symtablehash_hashFunction pcKey t.bucketCount
  let r := chainReplace pcKey pvValue (t.buckets.getD index [])
  match r.1 with
  | some oldValue => (some oldValue, { t with buckets := t.buckets.set index r.2 })
  | none => (none, t)

/-- The function `SymTable_remove`: result value and resulting table.  Only on a
match is the chain relinked and `nodeQuantity` decremented. -/
def SymTable_remove (t : SymTable V) (pcKey : Key) : Option V × SymTable V :=
  let index := symtablehash_hashFunction pcKey t.bucketCount
  let r := chainRemove pcKey (t.buckets.getD index [])
  match r.1 with
  | some oldValue =>
    (some oldValue,
     { t with buckets := t.buckets.set index r.2
              nodeQuantity := t.nodeQuantity - 1 })
  | none => (none, t)

/-- The function `SymTable_map`, modelled by its observable behaviour: the sequence
of argument triples `(pcKey, pvValue, pvExtra)` passed to `pfApply`, in
call order (outer loop over the buckets in index order, inner loop over
each chain from head to tail). -/
def SymTable_map (t : SymTable V) (pvExtra : E) : List (Key × V × E) :=
  t.buckets.foldl
    (fun calls chain =>
      chain.foldl (fun calls node => calls ++ [(node.pcKey, node.pvValue, pvExtra)]) calls)
    []

/-- All bindings of the table, obtained by walking every chain. -/
def bindings (t : SymTable V) : List (SymTableNode V) := t.buckets.flatten

/-- The structural invariants of a valid table (spec section 3): the
bucket array has exactly `bucketCount` slots, `nodeQuantity` counts the
bindings reachable by walking all chains, keys are unique across the
whole table, every binding sits in the chain selected by its hash under
the current capacity, and the capacity is the prime selected by
`currentPrimeIndex`. -/
structure WF (t : SymTable V) : Prop where
  bucketsLength : t.buckets.length = t.bucketCount
  countEq : t.nodeQuantity = (bindings t).length
  keysNodup : ((bindings t).map SymTableNode.pcKey).Nodup
  placement : ∀ i, i < t.buckets.length →
    ∀ node ∈ t.buckets.getD i [], symtablehash_hashFunction node.pcKey t.bucketCount = i
  primeIndexLt : t.currentPrimeIndex < PRIME_COUNT
  capEq : t.bucketCount = primes.getD t.currentPrimeIndex 0

/-! ### Generic list facts used throughout -/

theorem getD_set_self {α : Type} (l : List α) (i : Nat) (c d : α) (h : i < l.length) :
    (l.set i c).getD i d = c := by
  simp [List.getD_eq_getElem?_getD, List.getElem?_set_eq_of_lt, h]

theorem getD_set_ne {α : Type} (l : List α) (i j : Nat) (c d : α) (h : i ≠ j) :
    (l.set i c).getD j d = l.getD j d := by
  simp [List.getD_eq_getElem?_getD, List.getElem?_set_ne, h]

theorem getD_of_lt {α : Type} (l : List α) (i : Nat) (d : α) (h : i < l.length) :
    l.getD i d = l.get ⟨i, h⟩ := by
  simp [List.getD_eq_getElem?_getD, List.getElem?_eq_getElem h]

theorem getD_of_ge {α : Type} (l : List α) (i : Nat) (d : α) (h : l.length ≤ i) :
    l.getD i d = d := by
  simp [List.getD_eq_getElem?_getD, List.getElem?_eq_none (by simpa using h)]

theorem getD_replicate_nil {α : Type} (n i : Nat) :
    (List.replicate n ([] : List α)).getD i [] = [] := by
  rcases Nat.lt_or_ge i n with h | h
  · simp [List.getD_eq_getElem?_getD, List.getElem?_replicate, h]
  · exact getD_of_ge _ _ _ (by simpa using h)

theorem mem_flatten_of_mem_getD {α : Type} {L : List (List α)} {i : Nat} {a : α}
    (h : a ∈ L.getD i []) : a ∈ L.flatten := by
  rcases Nat.lt_or_ge i L.length with hi | hi
  · rw [getD_of_lt _ _ _ hi] at h
    exact List.mem_flatten.2 ⟨L.get ⟨i, hi⟩, List.get_mem L i hi, h⟩
  · rw [getD_of_ge _ _ _ hi] at h
    cases h

/-- Splitting the flattened bucket array at slot `i`. -/
theorem flatten_perm_getD_eraseIdx {α : Type} :
    ∀ (L : List (List α)) (i : Nat), i < L.length →
      List.Perm L.flatten (L.getD i [] ++ (L.eraseIdx i).flatten)
  | [], i, h => by simp at h
  | a :: L, 0, _ => by simp
  | a :: L, i + 1, h => by
    have ih := flatten_perm_getD_eraseIdx L i (by simpa using h)
    simp only [List.flatten_cons, List.getD_cons_succ, List.eraseIdx_cons_succ]
    refine (ih.append_left a).trans ?_
    rw [← List.append_assoc, ← List.append_assoc]
    exact (List.perm_append_comm).append_right _

/-- Flattening after overwriting slot `i` with a new chain. -/
theorem flatten_set_perm {α : Type} :
    ∀ (L : List (List α)) (i : Nat) (c : List α), i < L.length →
      List.Perm (L.set i c).flatten (c ++ (L.eraseIdx i).flatten)
  | [], i, c, h => by simp at h
  | a :: L, 0, c, _ => by simp
  | a :: L, i + 1, c, h => by
    have ih := flatten_set_perm L i c (by simpa using h)
    simp only [List.set_cons_succ, List.flatten_cons, List.eraseIdx_cons_succ]
    refine (ih.append_left a).trans ?_
    rw [← List.append_assoc, ← List.append_assoc]
    exact (List.perm_append_comm).append_right _

/-! ### Chain-walk lemmas -/

theorem chainGet_eq_none_iff {k : Key} :
    ∀ {l : List (SymTableNode V)}, chainGet k l = none ↔ ∀ n ∈ l, n.pcKey ≠ k
  | [] => by simp [chainGet]
  | node :: rest => by
    by_cases h : node.pcKey = k
    · simp [chainGet, h]
    · simp [chainGet, h, chainGet_eq_none_iff (l := rest)]

theorem chainGet_mem {k : Key} {v : V} :
    ∀ {l : List (SymTableNode V)}, chainGet k l = some v → (⟨k, v⟩ : SymTableNode V) ∈ l
  | [], h => by simp [chainGet] at h
  | ⟨nk, nv⟩ :: rest, h => by
    by_cases hk : nk = k
    · rw [chainGet, if_pos hk] at h
      obtain rfl := Option.some.inj h
      subst hk
      exact List.mem_cons_self _ _
    · rw [chainGet, if_neg hk] at h
      exact List.mem_cons_of_mem _ (chainGet_mem h)

/-- First-match decomposition: a successful `chainGet` splits the chain
at the first node with the sought key, and determines what `chainReplace`
and `chainRemove` do on the same chain. -/
theorem chainGet_first {k : Key} {v : V} :
    ∀ {l : List (SymTableNode V)}, chainGet k l = some v →
      ∃ pre suf, l = pre ++ ⟨k, v⟩ :: suf ∧ (∀ n ∈ pre, n.pcKey ≠ k) ∧
        (∀ v₂, chainReplace k v₂ l = (some v, pre ++ ⟨k, v₂⟩ :: suf)) ∧
        chainRemove k l = (some v, pre ++ suf)
  | [], h => by simp [chainGet] at h
  | ⟨nk, nv⟩ :: rest, h => by
    by_cases hk : nk = k
    · rw [chainGet, if_pos hk] at h
      obtain rfl := Option.some.inj h
      subst hk
      exact ⟨[], rest, rfl, by simp, fun v₂ => by simp [chainReplace],
        by simp [chainRemove]⟩
    · rw [chainGet, if_neg hk] at h
      obtain ⟨pre, suf, hsplit, hpre, hrep, hrem⟩ := chainGet_first h
      refine ⟨⟨nk, nv⟩ :: pre, suf, by simp [hsplit], ?_, fun v₂ => ?_, ?_⟩
      · intro n hn
        rcases List.mem_cons.1 hn with rfl | hn
        · exact hk
        · exact hpre n hn
      · simp [chainReplace, hk, hrep v₂]
      · simp [chainRemove, hk, hrem]

theorem chainContains_iff {k : Key} :
    ∀ {l : List (SymTableNode V)}, chainContains k l = true ↔ ∃ n ∈ l, n.pcKey = k
  | [] => by simp [chainContains]
  | node :: rest => by
    by_cases h : node.pcKey = k
    · simp [chainContains, h]
    · simp [chainContains, h, chainContains_iff (l := rest)]

theorem chainContains_eq_false_iff {k : Key} {l : List (SymTableNode V)} :
    chainContains k l = false ↔ ∀ n ∈ l, n.pcKey ≠ k := by
  rw [← Bool.not_eq_true, chainContains_iff]
  push_neg
  rfl

theorem chainGet_isSome_of_key_mem {k : Key} {l : List (SymTableNode V)}
    (h : ∃ n ∈ l, n.pcKey = k) : ∃ v, chainGet k l = some v := by
  cases hg : chainGet k l with
  | some v => exact ⟨v, rfl⟩
  | none =>
    obtain ⟨n, hn, hk⟩ := h
    exact absurd hk (chainGet_eq_none_iff.1 hg n hn)

theorem chainReplace_of_none {k : Key} {v₂ : V} :
    ∀ {l : List (SymTableNode V)}, chainGet k l = none → chainReplace k v₂ l = (none, l)
  | [], _ => rfl
  | node :: rest, h => by
    by_cases hk : node.pcKey = k
    · rw [chainGet, if_pos hk] at h
      cases h
    · rw [chainGet, if_neg hk] at h
      simp [chainReplace, hk, chainReplace_of_none h]

theorem chainRemove_of_none {k : Key} :
    ∀ {l : List (SymTableNode V)}, chainGet k l = none → chainRemove k l = (none, l)
  | [], _ => rfl
  | node :: rest, h => by
    by_cases hk : node.pcKey = k
    · rw [chainGet, if_pos hk] at h
      cases h
    · rw [chainGet, if_neg hk] at h
      simp [chainRemove, hk, chainRemove_of_none h]

/-! ### Facts about the prime table and the hash -/

theorem primes_getD_pos : ∀ i, i < PRIME_COUNT → 0 < primes.getD i 0 := by decide

theorem primes_getD_mem : ∀ i, i < PRIME_COUNT → primes.getD i 0 ∈ primes := by decide

theorem primes_getD_strictAscending :
    ∀ i, i < PRIME_COUNT - 1 → primes.getD i 0 < primes.getD (i + 1) 0 := by decide

theorem hashFunction_lt (k : Key) (bc : Nat) (h : 0 < bc) :
    symtablehash_hashFunction k bc < bc :=
  Nat.mod_lt _ h

theorem WF.cap_pos {t : SymTable V} (h : WF t) : 0 < t.bucketCount :=
  h.capEq ▸ primes_getD_pos _ h.primeIndexLt

/-! ### Lookup characterisations on well-formed tables -/

theorem mem_bucket_of_mem_bindings {t : SymTable V} (hWF : WF t) {node : SymTableNode V}
    (h : node ∈ bindings t) :
    node ∈ t.buckets.getD (symtablehash_hashFunction node.pcKey t.bucketCount) [] := by
  obtain ⟨chain, hchain, hnode⟩ := List.mem_flatten.1 h
  obtain ⟨⟨i, hi⟩, hget⟩ := List.mem_iff_get.1 hchain
  have hD : t.buckets.getD i [] = chain := by rw [getD_of_lt _ _ _ hi, hget]
  have hplace := hWF.placement i hi node (hD ▸ hnode)
  rw [hplace, hD]
  exact hnode

theorem get_eq_some_iff {t : SymTable V} (hWF : WF t) {k : Key} {v : V} :
    SymTable_get t k = some v ↔ (⟨k, v⟩ : SymTableNode V) ∈ bindings t := by
  constructor
  · intro h
    exact mem_flatten_of_mem_getD (chainGet_mem h)
  · intro h
    have hmem := mem_bucket_of_mem_bindings hWF h
    obtain ⟨v₂, hv₂⟩ := chainGet_isSome_of_key_mem ⟨⟨k, v⟩, hmem, rfl⟩
    have hmem₂ : (⟨k, v₂⟩ : SymTableNode V) ∈ bindings t :=
      mem_flatten_of_mem_getD (chainGet_mem hv₂)
    have he : (⟨k, v⟩ : SymTableNode V) = ⟨k, v₂⟩ :=
      List.inj_on_of_nodup_map hWF.keysNodup h hmem₂ rfl
    have hv : v = v₂ := congrArg SymTableNode.pvValue he
    show chainGet k _ = some v
    rw [hv]
    exact hv₂

theorem get_eq_none_iff {t : SymTable V} (hWF : WF t) {k : Key} :
    SymTable_get t k = none ↔ ∀ n ∈ bindings t, n.pcKey ≠ k := by
  constructor
  · intro h n hn hk
    have hb := mem_bucket_of_mem_bindings hWF hn
    rw [hk] at hb
    exact absurd hk (chainGet_eq_none_iff.1 h n hb)
  · intro h
    show chainGet k _ = none
    rw [chainGet_eq_none_iff]
    intro n hn
    exact h n (mem_flatten_of_mem_getD hn)

theorem contains_eq_one_iff {t : SymTable V} (hWF : WF t) {k : Key} :
    SymTable_contains t k = 1 ↔ ∃ n ∈ bindings t, n.pcKey = k := by
  by_cases h : chainContains k
      (t.buckets.getD (symtablehash_hashFunction k t.bucketCount) []) = true
  · rw [SymTable_contains, if_pos h]
    obtain ⟨n, hn, hk⟩ := chainContains_iff.1 h
    exact ⟨fun _ => ⟨n, mem_flatten_of_mem_getD hn, hk⟩, fun _ => rfl⟩
  · rw [SymTable_contains, if_neg h]
    constructor
    · intro h0
      cases h0
    · rintro ⟨n, hn, hk⟩
      have hb := mem_bucket_of_mem_bindings hWF hn
      rw [hk] at hb
      exact absurd (chainContains_iff.2 ⟨n, hb, hk⟩) h

theorem contains_eq_zero_iff {t : SymTable V} (hWF : WF t) {k : Key} :
    SymTable_contains t k = 0 ↔ ∀ n ∈ bindings t, n.pcKey ≠ k := by
  have h01 : SymTable_contains t k = 0 ↔ ¬ SymTable_contains t k = 1 := by
    rw [SymTable_contains]
    by_cases h : chainContains k
        (t.buckets.getD (symtablehash_hashFunction k t.bucketCount) []) = true
    · simp [h]
    · simp [h]
  rw [h01, contains_eq_one_iff hWF]
  push_neg
  rfl

/-- The two Perm-transfer facts used to move `get` across a
binding-preserving table transformation. -/
theorem get_eq_of_bindings_perm {t t' : SymTable V} (hWF : WF t) (hWF' : WF t')
    (hperm : List.Perm (bindings t') (bindings t)) (k : Key) :
    SymTable_get t' k = SymTable_get t k := by
  cases hg : SymTable_get t k with
  | some v =>
    exact (get_eq_some_iff hWF').2 (hperm.mem_iff.2 ((get_eq_some_iff hWF).1 hg))
  | none =>
    rw [get_eq_none_iff hWF']
    intro n hn
    exact (get_eq_none_iff hWF).1 hg n (hperm.mem_iff.1 hn)

theorem contains_eq_of_bindings_perm {t t' : SymTable V} (hWF : WF t) (hWF' : WF t')
    (hperm : List.Perm (bindings t') (bindings t)) (k : Key) :
    SymTable_contains t' k = SymTable_contains t k := by
  by_cases h : SymTable_contains t k = 1
  · rw [h, (contains_eq_one_iff hWF').2 ?ex]
    case ex =>
      obtain ⟨n, hn, hk⟩ := (contains_eq_one_iff hWF).1 h
      exact ⟨n, hperm.mem_iff.2 hn, hk⟩
  · have h0 : SymTable_contains t k = 0 := by
      rw [SymTable_contains] at h ⊢
      by_cases hb : chainContains k
          (t.buckets.getD (symtablehash_hashFunction k t.bucketCount) []) = true
      · exact absurd (if_pos hb) h
      · exact if_neg hb
    rw [h0, (contains_eq_zero_iff hWF').2 ?no]
    case no =>
      intro n hn
      exact (contains_eq_zero_iff hWF).1 h0 n (hperm.mem_iff.1 hn)

/-! ### The fresh table -/

theorem bindings_new : bindings (SymTable_new V) = [] := by
  simp [bindings, SymTable_new]

theorem WF_new : WF (SymTable_new V) := by
  refine ⟨?_, ?_, ?_, ?_, ?_, ?_⟩
  · simp [SymTable_new]
  · simp [SymTable_new, bindings]
  · simp [bindings_new]
  · intro i _ node hnode
    rw [SymTable_new] at hnode
    simp only at hnode
    rw [getD_replicate_nil] at hnode
    cases hnode
  · show (0 : Nat) < PRIME_COUNT
    decide
  · rfl

/-! ### The resize procedure -/

theorem resize_of_exhausted {t : SymTable V} (allocOk : Bool)
    (h : t.currentPrimeIndex + 1 ≥ PRIME_COUNT) :
    symtablehash_resizeHashTable allocOk t = t := by
  rw [symtablehash_resizeHashTable]
  simp [h]

theorem resize_of_allocFail (t : SymTable V) :
    symtablehash_resizeHashTable false t = t := by
  by_cases h : t.currentPrimeIndex + 1 ≥ PRIME_COUNT <;>
    · rw [symtablehash_resizeHashTable]
      simp [h]

theorem resize_eq_grow {t : SymTable V} (h1 : t.currentPrimeIndex + 1 < PRIME_COUNT) :
    symtablehash_resizeHashTable true t =
      { buckets := (bindings t).foldl (rehashNode (primes.getD (t.currentPrimeIndex + 1) 0))
          (List.replicate (primes.getD (t.currentPrimeIndex + 1) 0) [])
        bucketCount := primes.getD (t.currentPrimeIndex + 1) 0
        nodeQuantity := t.nodeQuantity
        currentPrimeIndex := t.currentPrimeIndex + 1 } := by
  have hfold : (bindings t).foldl (rehashNode (primes.getD (t.currentPrimeIndex + 1) 0))
      (List.replicate (primes.getD (t.currentPrimeIndex + 1) 0) []) =
      t.buckets.foldl
        (fun nb chain => chain.foldl (rehashNode (primes.getD (t.currentPrimeIndex + 1) 0)) nb)
        (List.replicate (primes.getD (t.currentPrimeIndex + 1) 0) []) :=
    List.foldl_flatten _ _ _
  rw [symtablehash_resizeHashTable]
  simp only [Nat.not_le.2 h1, if_neg, ite_false, ite_true, if_false]
  rw [hfold, if_neg (by simp)]

theorem rehash_length (m : Nat) :
    ∀ (ns : List (SymTableNode V)) (nb : List (List (SymTableNode V))),
      (ns.foldl (rehashNode m) nb).length = nb.length
  | [], nb => rfl
  | n :: ns, nb => by
    rw [List.foldl_cons, rehash_length m ns]
    simp [rehashNode]

theorem rehash_flatten_perm {m : Nat} (hm : 0 < m) :
    ∀ (ns : List (SymTableNode V)) (nb : List (List (SymTableNode V))), nb.length = m →
      List.Perm (ns.foldl (rehashNode m) nb).flatten (ns.reverse ++ nb.flatten)
  | [], nb, _ => by simp
  | n :: ns, nb, hlen => by
    rw [List.foldl_cons]
    have hstep : List.Perm (rehashNode m nb n).flatten (n :: nb.flatten) := by
      have hi : symtablehash_hashFunction n.pcKey m < nb.length := by
        rw [hlen]
        exact hashFunction_lt _ _ hm
      refine (flatten_set_perm nb _ _ hi).trans ?_
      show List.Perm ((n :: nb.getD _ []) ++ _) _
      rw [List.cons_append]
      exact ((flatten_perm_getD_eraseIdx nb _ hi).symm).cons n
    have ih := rehash_flatten_perm hm ns (rehashNode m nb n)
      (by rw [show (rehashNode m nb n).length = nb.length by simp [rehashNode], hlen])
    refine ih.trans ?_
    rw [List.reverse_cons, List.append_assoc]
    exact hstep.append_left ns.reverse

theorem rehash_placement {m : Nat} (hm : 0 < m) :
    ∀ (ns : List (SymTableNode V)) (nb : List (List (SymTableNode V))) (j : Nat),
      nb.length = m →
      (∀ node ∈ nb.getD j [], symtablehash_hashFunction node.pcKey m = j) →
      ∀ node ∈ (ns.foldl (rehashNode m) nb).getD j [],
        symtablehash_hashFunction node.pcKey m = j
  | [], nb, j, _, hinit => hinit
  | n :: ns, nb, j, hlen, hinit => by
    rw [List.foldl_cons]
    refine rehash_placement hm ns (rehashNode m nb n) j
      (by rw [show (rehashNode m nb n).length = nb.length by simp [rehashNode], hlen]) ?_
    intro node hnode
    by_cases hj : symtablehash_hashFunction n.pcKey m = j
    · rw [rehashNode, hj, getD_set_self _ _ _ _ (by rw [hlen]; exact hj ▸ hashFunction_lt _ _ hm)] at hnode
      rcases List.mem_cons.1 hnode with rfl | hnode
      · exact hj
      · exact hinit node hnode
    · rw [rehashNode, getD_set_ne _ _ _ _ _ hj] at hnode
      exact hinit node hnode

/-- Summary of a successful growth step: the resized table is
well-formed, its bindings are a permutation of the old ones, the count
is untouched, and the capacity does not shrink. -/
theorem resize_spec {t : SymTable V} (hWF : WF t) (allocOk : Bool) :
    WF (symtablehash_resizeHashTable allocOk t) ∧
    List.Perm (bindings (symtablehash_resizeHashTable allocOk t)) (bindings t) ∧
    (symtablehash_resizeHashTable allocOk t).nodeQuantity = t.nodeQuantity ∧
    t.bucketCount ≤ (symtablehash_resizeHashTable allocOk t).bucketCount := by
  by_cases hexh : t.currentPrimeIndex + 1 ≥ PRIME_COUNT
  · rw [resize_of_exhausted allocOk hexh]
    exact ⟨hWF, List.Perm.refl _, rfl, Nat.le_refl _⟩
  cases allocOk with
  | false =>
    rw [resize_of_allocFail]
    exact ⟨hWF, List.Perm.refl _, rfl, Nat.le_refl _⟩
  | true =>
    have h1 : t.currentPrimeIndex + 1 < PRIME_COUNT := Nat.not_le.1 hexh
    rw [resize_eq_grow h1]
    have hm : 0 < primes.getD (t.currentPrimeIndex + 1) 0 := primes_getD_pos _ h1
    have hrep : (List.replicate (primes.getD (t.currentPrimeIndex + 1) 0)
        ([] : List (SymTableNode V))).length = primes.getD (t.currentPrimeIndex + 1) 0 := by
      simp
    have hperm : List.Perm
        ((bindings t).foldl (rehashNode (primes.getD (t.currentPrimeIndex + 1) 0))
          (List.replicate (primes.getD (t.currentPrimeIndex + 1) 0) [])).flatten
        (bindings t) := by
      refine (rehash_flatten_perm hm _ _ hrep).trans ?_
      simp [List.reverse_perm]
    refine ⟨⟨?_, ?_, ?_, ?_, ?_, ?_⟩, hperm, rfl, ?_⟩
    · rw [rehash_length, hrep]
    · exact hWF.countEq.trans hperm.length_eq.symm
    · exact ((hperm.map SymTableNode.pcKey).symm).nodup hWF.keysNodup
    · intro i hi node hnode
      rw [rehash_length, hrep] at hi
      exact rehash_placement hm _ _ i hrep
        (by rw [getD_replicate_nil]; intro node h; cases h) node hnode
    · exact h1
    · rfl
    · calc t.bucketCount = primes.getD t.currentPrimeIndex 0 := hWF.capEq
        _ ≤ primes.getD (t.currentPrimeIndex + 1) 0 :=
          Nat.le_of_lt (primes_getD_strictAscending _ (by omega))

/-- The capacity after a resize attempt, as a closed formula. -/
theorem resize_bucketCount (allocOk : Bool) (t : SymTable V) :
    (symtablehash_resizeHashTable allocOk t).bucketCount =
      if t.currentPrimeIndex + 1 < PRIME_COUNT ∧ allocOk = true
      then primes.getD (t.currentPrimeIndex + 1) 0
      else t.bucketCount := by
  by_cases hexh : t.currentPrimeIndex + 1 < PRIME_COUNT
  · cases allocOk with
    | false =>
      rw [resize_of_allocFail, if_neg (by simp)]
    | true =>
      rw [resize_eq_grow hexh, if_pos ⟨hexh, rfl⟩]
  · rw [resize_of_exhausted allocOk (Nat.not_lt.1 hexh), if_neg (by simp [hexh])]

/-! ### The put operation -/

theorem put_phase1_spec {t t1 : SymTable V} (hWF : WF t) (allocOk : Bool)
    (h : (if 4 * t.nodeQuantity > 3 * t.bucketCount
        then symtablehash_resizeHashTable allocOk t else t) = t1) :
    WF t1 ∧ List.Perm (bindings t1) (bindings t) ∧
    t1.nodeQuantity = t.nodeQuantity ∧ t.bucketCount ≤ t1.bucketCount := by
  subst h
  by_cases hload : 4 * t.nodeQuantity > 3 * t.bucketCount
  · rw [if_pos hload]
    exact ⟨(resize_spec hWF allocOk).1, (resize_spec hWF allocOk).2.1,
      (resize_spec hWF allocOk).2.2.1, (resize_spec hWF allocOk).2.2.2⟩
  · rw [if_neg hload]
    exact ⟨hWF, List.Perm.refl _, rfl, Nat.le_refl _⟩

/-- Running `put` on a key that is already bound: the duplicate check fires,
the return code is 0, and the resulting table is exactly the
phase-1 table (the original, possibly resized). -/
theorem put_present_spec {t : SymTable V} (hWF : WF t) (allocOk : Bool) {k : Key} (v : V)
    (hpres : ∃ n ∈ bindings t, n.pcKey = k) :
    (SymTable_put allocOk t k v).1 = 0 ∧ WF (SymTable_put allocOk t k v).2 ∧
    List.Perm (bindings (SymTable_put allocOk t k v).2) (bindings t) ∧
    (SymTable_put allocOk t k v).2.nodeQuantity = t.nodeQuantity ∧
    t.bucketCount ≤ (SymTable_put allocOk t k v).2.bucketCount := by
  simp only [SymTable_put]
  generalize hgen : (if 4 * t.nodeQuantity > 3 * t.bucketCount
      then symtablehash_resizeHashTable allocOk t else t) = t1
  obtain ⟨hWF1, hperm1, hcount1, hcap1⟩ := put_phase1_spec hWF allocOk hgen
  have hc : chainContains k
      (t1.buckets.getD (symtablehash_hashFunction k t1.bucketCount) []) = true := by
    obtain ⟨n, hn, hk⟩ := hpres
    have hn1 : n ∈ bindings t1 := hperm1.mem_iff.2 hn
    have hb := mem_bucket_of_mem_bindings hWF1 hn1
    rw [hk] at hb
    exact chainContains_iff.2 ⟨n, hb, hk⟩
  rw [if_pos hc]
  exact ⟨rfl, hWF1, hperm1, hcount1, hcap1⟩

/-- Running `put` on a key that is not bound: the insertion happens at the head
of the selected chain of the phase-1 table. -/
theorem put_absent_spec {t : SymTable V} (hWF : WF t) (allocOk : Bool) {k : Key} (v : V)
    (habs : ∀ n ∈ bindings t, n.pcKey ≠ k) :
    (SymTable_put allocOk t k v).1 = 1 ∧ WF (SymTable_put allocOk t k v).2 ∧
    List.Perm (bindings (SymTable_put allocOk t k v).2)
      ((⟨k, v⟩ : SymTableNode V) :: bindings t) ∧
    (SymTable_put allocOk t k v).2.nodeQuantity = t.nodeQuantity + 1 ∧
    t.bucketCount ≤ (SymTable_put allocOk t k v).2.bucketCount := by
  simp only [SymTable_put]
  generalize hgen : (if 4 * t.nodeQuantity > 3 * t.bucketCount
      then symtablehash_resizeHashTable allocOk t else t) = t1
  obtain ⟨hWF1, hperm1, hcount1, hcap1⟩ := put_phase1_spec hWF allocOk hgen
  have habs1 : ∀ n ∈ bindings t1, n.pcKey ≠ k := fun n hn =>
    habs n (hperm1.mem_iff.1 hn)
  have hc : chainContains k
      (t1.buckets.getD (symtablehash_hashFunction k t1.bucketCount) []) = false :=
    chainContains_eq_false_iff.2 fun n hn => habs1 n (mem_flatten_of_mem_getD hn)
  rw [if_neg (by rw [hc]; simp)]
  have hidx : symtablehash_hashFunction k t1.bucketCount < t1.buckets.length := by
    rw [hWF1.bucketsLength]
    exact hashFunction_lt _ _ hWF1.cap_pos
  have hpermIns : List.Perm
      ((t1.buckets.set (symtablehash_hashFunction k t1.bucketCount)
        ((⟨k, v⟩ : SymTableNode V) ::
          t1.buckets.getD (symtablehash_hashFunction k t1.bucketCount) []))).flatten
      ((⟨k, v⟩ : SymTableNode V) :: bindings t1) := by
    refine (flatten_set_perm t1.buckets _ _ hidx).trans ?_
    rw [List.cons_append]
    exact ((flatten_perm_getD_eraseIdx t1.buckets _ hidx).symm).cons _
  refine ⟨rfl, ⟨?_, ?_, ?_, ?_, ?_, ?_⟩, hpermIns.trans (hperm1.cons _), ?_, hcap1⟩
  · show (t1.buckets.set _ _).length = t1.bucketCount
    rw [List.length_set]
    exact hWF1.bucketsLength
  · show t1.nodeQuantity + 1 = _
    rw [show bindings (SymTable.mk
        (t1.buckets.set (symtablehash_hashFunction k t1.bucketCount)
          ((⟨k, v⟩ : SymTableNode V) ::
            t1.buckets.getD (symtablehash_hashFunction k t1.bucketCount) []))
        t1.bucketCount (t1.nodeQuantity + 1) t1.currentPrimeIndex) =
      (t1.buckets.set (symtablehash_hashFunction k t1.bucketCount)
        ((⟨k, v⟩ : SymTableNode V) ::
          t1.buckets.getD (symtablehash_hashFunction k t1.bucketCount) [])).flatten from rfl]
    rw [hpermIns.length_eq]
    simp [hWF1.countEq]
  · refine (hpermIns.map SymTableNode.pcKey).symm.nodup ?_
    rw [List.map_cons]
    refine List.Nodup.cons ?_ hWF1.keysNodup
    intro hmem
    obtain ⟨n, hn, hk⟩ := List.mem_map.1 hmem
    exact habs1 n hn hk
  · show ∀ i, i < (t1.buckets.set (symtablehash_hashFunction k t1.bucketCount)
        ((⟨k, v⟩ : SymTableNode V) ::
          t1.buckets.getD (symtablehash_hashFunction k t1.bucketCount) [])).length →
      ∀ node ∈ (t1.buckets.set (symtablehash_hashFunction k t1.bucketCount)
        ((⟨k, v⟩ : SymTableNode V) ::
          t1.buckets.getD (symtablehash_hashFunction k t1.bucketCount) [])).getD i [],
        symtablehash_hashFunction node.pcKey t1.bucketCount = i
    intro i hi node hnode
    rw [List.length_set] at hi
    by_cases hieq : symtablehash_hashFunction k t1.bucketCount = i
    · rw [← hieq] at hnode
      rw [getD_set_self _ _ _ _ hidx] at hnode
      rcases List.mem_cons.1 hnode with rfl | hnode
      · exact hieq
      · rw [← hieq]
        exact hWF1.placement _ hidx node hnode
    · rw [getD_set_ne _ _ _ _ _ hieq] at hnode
      exact hWF1.placement i hi node hnode
  · exact hWF1.primeIndexLt
  · exact hWF1.capEq
  · show t1.nodeQuantity + 1 = t.nodeQuantity + 1
    rw [hcount1]

/-! ### The replace and remove operations -/

theorem chainGet_append_left {k : Key} {v : V} :
    ∀ {l₁ : List (SymTableNode V)} (l₂ : List (SymTableNode V)),
      chainGet k l₁ = some v → chainGet k (l₁ ++ l₂) = some v
  | [], _, h => by cases h
  | node :: rest, l₂, h => by
    by_cases hk : node.pcKey = k
    · rw [chainGet, if_pos hk] at h
      rw [List.cons_append, chainGet, if_pos hk]
      exact h
    · rw [chainGet, if_neg hk] at h
      rw [List.cons_append, chainGet, if_neg hk]
      exact chainGet_append_left l₂ h

theorem chainGet_append_right {k : Key} :
    ∀ {l₁ : List (SymTableNode V)} (l₂ : List (SymTableNode V)),
      chainGet k l₁ = none → chainGet k (l₁ ++ l₂) = chainGet k l₂
  | [], _, _ => rfl
  | node :: rest, l₂, h => by
    by_cases hk : node.pcKey = k
    · rw [chainGet, if_pos hk] at h
      cases h
    · rw [chainGet, if_neg hk] at h
      rw [List.cons_append, chainGet, if_neg hk]
      exact chainGet_append_right l₂ h

/-- Chain lookup of a different key does not see a changed value. -/
theorem chainGet_value_irrelevant {k k₂ : Key} (hne : k₂ ≠ k)
    (pre suf : List (SymTableNode V)) (x y : V) :
    chainGet k₂ (pre ++ ⟨k, x⟩ :: suf) = chainGet k₂ (pre ++ ⟨k, y⟩ :: suf) := by
  cases hp : chainGet k₂ pre with
  | some v => rw [chainGet_append_left _ hp, chainGet_append_left _ hp]
  | none =>
    rw [chainGet_append_right _ hp, chainGet_append_right _ hp]
    rw [chainGet, chainGet, if_neg (fun h => hne h.symm), if_neg (fun h => hne h.symm)]

theorem idx_lt_of_get_some {t : SymTable V} {k : Key} {v : V}
    (h : SymTable_get t k = some v) :
    symtablehash_hashFunction k t.bucketCount < t.buckets.length := by
  by_contra hge
  have : t.buckets.getD (symtablehash_hashFunction k t.bucketCount) [] = [] :=
    getD_of_ge _ _ _ (Nat.not_lt.1 hge)
  rw [SymTable_get, this] at h
  cases h

/-- What `SymTable_replace` does on a present key, including the exact
chain surgery. -/
theorem replace_present_spec {t : SymTable V} {k : Key} {old : V} (vNew : V)
    (hget : SymTable_get t k = some old) :
    ∃ pre suf,
      t.buckets.getD (symtablehash_hashFunction k t.bucketCount) [] =
        pre ++ (⟨k, old⟩ : SymTableNode V) :: suf ∧
      SymTable_replace t k vNew = (some old,
        { t with
          buckets := t.buckets.set (symtablehash_hashFunction k t.bucketCount)
            (pre ++ (⟨k, vNew⟩ : SymTableNode V) :: suf) }) ∧
      (∀ n ∈ pre, n.pcKey ≠ k) := by
  obtain ⟨pre, suf, hsplit, hpre, hrep, _⟩ := chainGet_first hget
  refine ⟨pre, suf, hsplit, ?_, hpre⟩
  simp only [SymTable_replace, hrep vNew]

theorem replace_absent_spec {t : SymTable V} {k : Key} (vNew : V)
    (hget : SymTable_get t k = none) :
    SymTable_replace t k vNew = (none, t) := by
  simp only [SymTable_replace, chainReplace_of_none hget]

theorem remove_present_eq {t : SymTable V} {k : Key} {old : V}
    (hget : SymTable_get t k = some old) :
    ∃ pre suf,
      t.buckets.getD (symtablehash_hashFunction k t.bucketCount) [] =
        pre ++ (⟨k, old⟩ : SymTableNode V) :: suf ∧
      SymTable_remove t k = (some old,
        { t with
          buckets := t.buckets.set (symtablehash_hashFunction k t.bucketCount) (pre ++ suf),
          nodeQuantity := t.nodeQuantity - 1 }) ∧
      (∀ n ∈ pre, n.pcKey ≠ k) := by
  obtain ⟨pre, suf, hsplit, hpre, _, hrem⟩ := chainGet_first hget
  refine ⟨pre, suf, hsplit, ?_, hpre⟩
  simp only [SymTable_remove, hrem]

theorem remove_absent_spec {t : SymTable V} {k : Key}
    (hget : SymTable_get t k = none) :
    SymTable_remove t k = (none, t) := by
  simp only [SymTable_remove, chainRemove_of_none hget]

/-- Functional and frame behaviour of `replace` on a present key.  None
of this needs the table invariants: it is forced by the chain surgery
alone. -/
theorem replace_present_get {t : SymTable V} {k : Key} {old : V} (vNew : V)
    (hget : SymTable_get t k = some old) :
    (SymTable_replace t k vNew).1 = some old ∧
    SymTable_get (SymTable_replace t k vNew).2 k = some vNew ∧
    (∀ k₂, k₂ ≠ k → SymTable_get (SymTable_replace t k vNew).2 k₂ = SymTable_get t k₂) ∧
    (SymTable_replace t k vNew).2.nodeQuantity = t.nodeQuantity ∧
    (SymTable_replace t k vNew).2.bucketCount = t.bucketCount ∧
    (SymTable_replace t k vNew).2.currentPrimeIndex = t.currentPrimeIndex ∧
    (∀ j, j ≠ symtablehash_hashFunction k t.bucketCount →
      (SymTable_replace t k vNew).2.buckets.getD j [] = t.buckets.getD j []) := by
  obtain ⟨pre, suf, hsplit, heq, hpre⟩ := replace_present_spec vNew hget
  have hidx := idx_lt_of_get_some hget
  rw [heq]
  have hpreNone : chainGet k pre = none := chainGet_eq_none_iff.2 hpre
  refine ⟨rfl, ?_, ?_, rfl, rfl, rfl, ?_⟩
  · show chainGet k ((t.buckets.set (symtablehash_hashFunction k t.bucketCount)
        (pre ++ (⟨k, vNew⟩ : SymTableNode V) :: suf)).getD
          (symtablehash_hashFunction k t.bucketCount) []) = some vNew
    rw [getD_set_self _ _ _ _ hidx, chainGet_append_right _ hpreNone, chainGet, if_pos rfl]
  · intro k₂ hk₂
    show chainGet k₂ ((t.buckets.set (symtablehash_hashFunction k t.bucketCount)
        (pre ++ (⟨k, vNew⟩ : SymTableNode V) :: suf)).getD
          (symtablehash_hashFunction k₂ t.bucketCount) []) = SymTable_get t k₂
    by_cases hj : symtablehash_hashFunction k₂ t.bucketCount =
        symtablehash_hashFunction k t.bucketCount
    · rw [hj, getD_set_self _ _ _ _ hidx,
        chainGet_value_irrelevant hk₂ pre suf vNew old, ← hsplit, SymTable_get, hj]
    · rw [getD_set_ne _ _ _ _ _ (fun he => hj he.symm), SymTable_get]
  · intro j hj
    show (t.buckets.set (symtablehash_hashFunction k t.bucketCount)
        (pre ++ (⟨k, vNew⟩ : SymTableNode V) :: suf)).getD j [] = t.buckets.getD j []
    exact getD_set_ne _ _ _ _ _ (fun he => hj he.symm)

/-- The operation `replace` preserves the structural invariants and the capacity. -/
theorem replace_WF {t : SymTable V} (hWF : WF t) (k : Key) (vNew : V) :
    WF (SymTable_replace t k vNew).2 ∧
    (SymTable_replace t k vNew).2.bucketCount = t.bucketCount ∧
    (SymTable_replace t k vNew).2.nodeQuantity = t.nodeQuantity := by
  cases hget : SymTable_get t k with
  | none =>
    rw [replace_absent_spec vNew hget]
    exact ⟨hWF, rfl, rfl⟩
  | some old =>
    obtain ⟨pre, suf, hsplit, heq, hpre⟩ := replace_present_spec vNew hget
    have hidx := idx_lt_of_get_some hget
    rw [heq]
    have p1 : List.Perm (bindings t)
        ((pre ++ (⟨k, old⟩ : SymTableNode V) :: suf) ++
          (t.buckets.eraseIdx (symtablehash_hashFunction k t.bucketCount)).flatten) := by
      refine (flatten_perm_getD_eraseIdx t.buckets _ hidx).trans ?_
      rw [hsplit]
    have p2 : List.Perm
        (bindings { t with
          buckets := t.buckets.set (symtablehash_hashFunction k t.bucketCount)
            (pre ++ (⟨k, vNew⟩ : SymTableNode V) :: suf) })
        ((pre ++ (⟨k, vNew⟩ : SymTableNode V) :: suf) ++
          (t.buckets.eraseIdx (symtablehash_hashFunction k t.bucketCount)).flatten) :=
      flatten_set_perm t.buckets _ _ hidx
    have hkeys : ((pre ++ (⟨k, vNew⟩ : SymTableNode V) :: suf) ++
          (t.buckets.eraseIdx (symtablehash_hashFunction k t.bucketCount)).flatten).map
            SymTableNode.pcKey =
        ((pre ++ (⟨k, old⟩ : SymTableNode V) :: suf) ++
          (t.buckets.eraseIdx (symtablehash_hashFunction k t.bucketCount)).flatten).map
            SymTableNode.pcKey := by
      simp
    refine ⟨⟨?_, ?_, ?_, ?_, hWF.primeIndexLt, hWF.capEq⟩, rfl, rfl⟩
    · show (t.buckets.set _ _).length = t.bucketCount
      rw [List.length_set]
      exact hWF.bucketsLength
    · show t.nodeQuantity = _
      rw [p2.length_eq, hWF.countEq, p1.length_eq]
      simp
    · have n1 := (p1.map SymTableNode.pcKey).nodup hWF.keysNodup
      rw [← hkeys] at n1
      exact ((p2.map SymTableNode.pcKey).symm).nodup n1
    · show ∀ i, i < (t.buckets.set (symtablehash_hashFunction k t.bucketCount)
          (pre ++ (⟨k, vNew⟩ : SymTableNode V) :: suf)).length →
        ∀ node ∈ (t.buckets.set (symtablehash_hashFunction k t.bucketCount)
          (pre ++ (⟨k, vNew⟩ : SymTableNode V) :: suf)).getD i [],
          symtablehash_hashFunction node.pcKey t.bucketCount = i
      intro i hi node hnode
      rw [List.length_set] at hi
      by_cases hieq : symtablehash_hashFunction k t.bucketCount = i
      · rw [← hieq, getD_set_self _ _ _ _ hidx] at hnode
        rw [← hieq]
        rcases List.mem_append.1 hnode with hn | hn
        · exact hWF.placement _ hidx node (by rw [hsplit]; exact List.mem_append_left _ hn)
        · rcases List.mem_cons.1 hn with rfl | hn
          · rfl
          · exact hWF.placement _ hidx node
              (by rw [hsplit]; exact List.mem_append_right _ (List.mem_cons_of_mem _ hn))
      · rw [getD_set_ne _ _ _ _ _ hieq] at hnode
        exact hWF.placement i hi node hnode

/-- Full behaviour of `remove` on a present key, on a well-formed
table. -/
theorem remove_present_get {t : SymTable V} (hWF : WF t) {k : Key} {old : V}
    (hget : SymTable_get t k = some old) :
    (SymTable_remove t k).1 = some old ∧
    WF (SymTable_remove t k).2 ∧
    List.Perm (bindings t) ((⟨k, old⟩ : SymTableNode V) :: bindings (SymTable_remove t k).2) ∧
    (SymTable_remove t k).2.nodeQuantity + 1 = t.nodeQuantity ∧
    SymTable_contains (SymTable_remove t k).2 k = 0 ∧
    (SymTable_remove t k).2.bucketCount = t.bucketCount ∧
    (SymTable_remove t k).2.currentPrimeIndex = t.currentPrimeIndex := by
  obtain ⟨pre, suf, hsplit, heq, hpre⟩ := remove_present_eq hget
  have hidx := idx_lt_of_get_some hget
  rw [heq]
  have p1 : List.Perm (bindings t)
      ((pre ++ (⟨k, old⟩ : SymTableNode V) :: suf) ++
        (t.buckets.eraseIdx (symtablehash_hashFunction k t.bucketCount)).flatten) := by
    refine (flatten_perm_getD_eraseIdx t.buckets _ hidx).trans ?_
    rw [hsplit]
  have p2 : List.Perm
      ((t.buckets.set (symtablehash_hashFunction k t.bucketCount) (pre ++ suf)).flatten)
      ((pre ++ suf) ++
        (t.buckets.eraseIdx (symtablehash_hashFunction k t.bucketCount)).flatten) :=
    flatten_set_perm t.buckets _ _ hidx
  have pBig : List.Perm (bindings t)
      ((⟨k, old⟩ : SymTableNode V) ::
        (t.buckets.set (symtablehash_hashFunction k t.bucketCount) (pre ++ suf)).flatten) := by
    refine p1.trans ?_
    refine (List.Perm.append_right _ List.perm_middle).trans ?_
    rw [List.cons_append]
    exact (p2.symm).cons _
  have hcount : t.nodeQuantity = 1 +
      ((t.buckets.set (symtablehash_hashFunction k t.bucketCount) (pre ++ suf)).flatten).length := by
    rw [hWF.countEq, pBig.length_eq, List.length_cons]
    omega
  have hkeysCons := (pBig.map SymTableNode.pcKey).nodup hWF.keysNodup
  rw [List.map_cons] at hkeysCons
  have hknotin := (List.nodup_cons.1 hkeysCons).1
  have hktail := (List.nodup_cons.1 hkeysCons).2
  have hWF2 : WF { t with
      buckets := t.buckets.set (symtablehash_hashFunction k t.bucketCount) (pre ++ suf),
      nodeQuantity := t.nodeQuantity - 1 } := by
    refine ⟨?_, ?_, hktail, ?_, hWF.primeIndexLt, hWF.capEq⟩
    · show (t.buckets.set _ _).length = t.bucketCount
      rw [List.length_set]
      exact hWF.bucketsLength
    · show t.nodeQuantity - 1 =
        ((t.buckets.set (symtablehash_hashFunction k t.bucketCount) (pre ++ suf)).flatten).length
      omega
    · show ∀ i, i < (t.buckets.set (symtablehash_hashFunction k t.bucketCount)
          (pre ++ suf)).length →
        ∀ node ∈ (t.buckets.set (symtablehash_hashFunction k t.bucketCount)
          (pre ++ suf)).getD i [],
          symtablehash_hashFunction node.pcKey t.bucketCount = i
      intro i hi node hnode
      rw [List.length_set] at hi
      by_cases hieq : symtablehash_hashFunction k t.bucketCount = i
      · rw [← hieq, getD_set_self _ _ _ _ hidx] at hnode
        rw [← hieq]
        rcases List.mem_append.1 hnode with hn | hn
        · exact hWF.placement _ hidx node (by rw [hsplit]; exact List.mem_append_left _ hn)
        · exact hWF.placement _ hidx node
            (by rw [hsplit]; exact List.mem_append_right _ (List.mem_cons_of_mem _ hn))
      · rw [getD_set_ne _ _ _ _ _ hieq] at hnode
        exact hWF.placement i hi node hnode
  refine ⟨rfl, hWF2, pBig, ?_, ?_, rfl, rfl⟩
  · show t.nodeQuantity - 1 + 1 = t.nodeQuantity
    omega
  · refine (contains_eq_zero_iff hWF2).2 ?_
    intro n hn hk
    exact hknotin (List.mem_map.2 ⟨n, hn, hk⟩)

/-! ### The map operation -/

theorem foldl_append_singleton {α β : Type} (g : α → β) :
    ∀ (l : List α) (acc : List β),
      l.foldl (fun calls node => calls ++ [g node]) acc = acc ++ l.map g
  | [], acc => by simp
  | x :: l, acc => by
    rw [List.foldl_cons, foldl_append_singleton g l]
    simp

/-- The call trace of `SymTable_map` is exactly one call per binding, in
chain-walk order. -/
theorem SymTable_map_eq (t : SymTable V) (e : E) :
    SymTable_map t e = (bindings t).map (fun node => (node.pcKey, node.pvValue, e)) := by
  rw [SymTable_map, ← List.foldl_flatten, foldl_append_singleton, List.nil_append]
  rfl

/-! ### Sequences of put calls -/

/-- Run a sequence of `put` calls (with succeeding allocations),
collecting every return code and the final table. -/
def runPuts (t : SymTable V) : List (Key × V) → List Nat × SymTable V
  | [] => ([], t)
  | kv :: rest =>
    let r := SymTable_put true t kv.1 kv.2
    let rr := runPuts r.2 rest
    (r.1 :: rr.1, rr.2)

/-- Main induction: a sequence of puts with fresh, pairwise-distinct
keys succeeds throughout and adds exactly those bindings. -/
theorem runPuts_spec :
    ∀ (kvs : List (Key × V)) (t : SymTable V), WF t →
      (kvs.map Prod.fst).Nodup →
      (∀ kv ∈ kvs, ∀ n ∈ bindings t, n.pcKey ≠ kv.1) →
      (runPuts t kvs).1 = List.replicate kvs.length 1 ∧
      WF (runPuts t kvs).2 ∧
      List.Perm (bindings (runPuts t kvs).2)
        (kvs.map (fun kv => (⟨kv.1, kv.2⟩ : SymTableNode V)) ++ bindings t) ∧
      t.bucketCount ≤ (runPuts t kvs).2.bucketCount
  | [], t, hWF, _, _ => ⟨rfl, hWF, by simp [runPuts], Nat.le_refl _⟩
  | (k, v) :: kvs, t, hWF, hnodup, hdisj => by
    obtain ⟨h1, hWF1, hperm1, hcount1, hcap1⟩ :=
      put_absent_spec hWF true v (fun n hn => hdisj (k, v) (List.mem_cons_self _ _) n hn)
    have hk_notin : k ∉ kvs.map Prod.fst := by
      rw [List.map_cons] at hnodup
      exact (List.nodup_cons.1 hnodup).1
    have hdisj' : ∀ kv ∈ kvs, ∀ n ∈ bindings (SymTable_put true t k v).2, n.pcKey ≠ kv.1 := by
      intro kv hkv n hn
      rcases List.mem_cons.1 (hperm1.mem_iff.1 hn) with rfl | hmem
      · show k ≠ kv.1
        intro hkk
        exact hk_notin (hkk ▸ List.mem_map.2 ⟨kv, hkv, rfl⟩)
      · exact hdisj kv (List.mem_cons_of_mem _ hkv) n hmem
    obtain ⟨hr1, hrWF, hrperm, hrcap⟩ := runPuts_spec kvs (SymTable_put true t k v).2 hWF1
      (by rw [List.map_cons] at hnodup; exact (List.nodup_cons.1 hnodup).2) hdisj'
    simp only [runPuts]
    refine ⟨?_, hrWF, ?_, hcap1.trans hrcap⟩
    · rw [List.length_cons, List.replicate_succ]
      rw [show ((SymTable_put true t k v).1 :: (runPuts (SymTable_put true t k v).2 kvs).1) =
        ((SymTable_put true t k v).1 :: (runPuts (SymTable_put true t k v).2 kvs).1) from rfl]
      rw [h1, hr1]
    · refine hrperm.trans ?_
      refine ((hperm1.append_left _).trans ?_)
      rw [List.map_cons]
      exact List.perm_middle

/-- A put that does not cross the load factor leaves the capacity and
the prime index untouched. -/
theorem put_noResize_cap {t : SymTable V}
    (h : ¬ 4 * t.nodeQuantity > 3 * t.bucketCount) (allocOk : Bool) (k : Key) (v : V) :
    (SymTable_put allocOk t k v).2.bucketCount = t.bucketCount ∧
    (SymTable_put allocOk t k v).2.currentPrimeIndex = t.currentPrimeIndex := by
  simp only [SymTable_put, if_neg h]
  by_cases hc : chainContains k
      (t.buckets.getD (symtablehash_hashFunction k t.bucketCount) []) = true
  · rw [if_pos hc]
    exact ⟨rfl, rfl⟩
  · rw [if_neg hc]
    exact ⟨rfl, rfl⟩

/-- If even the last insertion of the sequence stays at or below the
load factor, the whole run never resizes. -/
theorem runPuts_noResize :
    ∀ (kvs : List (Key × V)) (t : SymTable V), WF t →
      (kvs.map Prod.fst).Nodup →
      (∀ kv ∈ kvs, ∀ n ∈ bindings t, n.pcKey ≠ kv.1) →
      4 * (t.nodeQuantity + kvs.length) ≤ 3 * t.bucketCount + 4 →
      (runPuts t kvs).2.bucketCount = t.bucketCount ∧
      (runPuts t kvs).2.currentPrimeIndex = t.currentPrimeIndex ∧
      (runPuts t kvs).2.nodeQuantity = t.nodeQuantity + kvs.length
  | [], t, _, _, _, _ => ⟨rfl, rfl, rfl⟩
  | (k, v) :: kvs, t, hWF, hnodup, hdisj, hbound => by
    obtain ⟨h1, hWF1, hperm1, hcount1, _⟩ :=
      put_absent_spec hWF true v (fun n hn => hdisj (k, v) (List.mem_cons_self _ _) n hn)
    have hnores : ¬ 4 * t.nodeQuantity > 3 * t.bucketCount := by
      rw [List.length_cons] at hbound
      omega
    obtain ⟨hcap1, hidx1⟩ := put_noResize_cap hnores true k v
    have hk_notin : k ∉ kvs.map Prod.fst := by
      rw [List.map_cons] at hnodup
      exact (List.nodup_cons.1 hnodup).1
    have hdisj' : ∀ kv ∈ kvs, ∀ n ∈ bindings (SymTable_put true t k v).2, n.pcKey ≠ kv.1 := by
      intro kv hkv n hn
      rcases List.mem_cons.1 (hperm1.mem_iff.1 hn) with rfl | hmem
      · show k ≠ kv.1
        intro hkk
        exact hk_notin (hkk ▸ List.mem_map.2 ⟨kv, hkv, rfl⟩)
      · exact hdisj kv (List.mem_cons_of_mem _ hkv) n hmem
    obtain ⟨hrcap, hridx, hrcount⟩ := runPuts_noResize kvs (SymTable_put true t k v).2 hWF1
      (by rw [List.map_cons] at hnodup; exact (List.nodup_cons.1 hnodup).2) hdisj'
      (by rw [hcount1, hcap1]; rw [List.length_cons] at hbound; omega)
    simp only [runPuts]
    refine ⟨hrcap.trans hcap1, hridx.trans hidx1, ?_⟩
    rw [hrcount, hcount1, List.length_cons]
    omega

/-! ### Reachable table states -/

/-- Tables reachable from a fresh table by the mutating operations;
`map` does not change the table, so it adds no transition. -/
inductive Reachable : SymTable V → Prop
  | new : Reachable (SymTable_new V)
  | put (t : SymTable V) (allocOk : Bool) (k : Key) (v : V) :
      Reachable t → Reachable (SymTable_put allocOk t k v).2
  | replace (t : SymTable V) (k : Key) (v : V) :
      Reachable t → Reachable (SymTable_replace t k v).2
  | remove (t : SymTable V) (k : Key) :
      Reachable t → Reachable (SymTable_remove t k).2

/-- The operation `put` preserves the invariants on any well-formed table. -/
theorem put_WF {t : SymTable V} (hWF : WF t) (allocOk : Bool) (k : Key) (v : V) :
    WF (SymTable_put allocOk t k v).2 := by
  cases hget : SymTable_get t k with
  | some v₀ =>
    exact (put_present_spec hWF allocOk v ⟨⟨k, v₀⟩, (get_eq_some_iff hWF).1 hget, rfl⟩).2.1
  | none =>
    exact (put_absent_spec hWF allocOk v ((get_eq_none_iff hWF).1 hget)).2.1

/-- The operation `remove` preserves the invariants on any well-formed table. -/
theorem remove_WF {t : SymTable V} (hWF : WF t) (k : Key) :
    WF (SymTable_remove t k).2 ∧ (SymTable_remove t k).2.bucketCount = t.bucketCount := by
  cases hget : SymTable_get t k with
  | some v₀ =>
    exact ⟨(remove_present_get hWF hget).2.1, (remove_present_get hWF hget).2.2.2.2.2.1⟩
  | none =>
    rw [remove_absent_spec hget]
    exact ⟨hWF, rfl⟩

/-- Every reachable table is well-formed. -/
theorem Reachable.toWF {t : SymTable V} (h : Reachable t) : WF t := by
  induction h with
  | new => exact WF_new
  | put t allocOk k v _ ih => exact put_WF ih allocOk k v
  | replace t k v _ ih => exact (replace_WF ih k v).1
  | remove t k _ ih => exact (remove_WF ih k).1

/-- The operation `put` never shrinks the capacity of a well-formed table. -/
theorem put_cap_mono {t : SymTable V} (hWF : WF t) (allocOk : Bool) (k : Key) (v : V) :
    t.bucketCount ≤ (SymTable_put allocOk t k v).2.bucketCount := by
  cases hget : SymTable_get t k with
  | some v₀ =>
    exact (put_present_spec hWF allocOk v ⟨⟨k, v₀⟩, (get_eq_some_iff hWF).1 hget, rfl⟩).2.2.2.2
  | none =>
    exact (put_absent_spec hWF allocOk v ((get_eq_none_iff hWF).1 hget)).2.2.2.2

/-- The capacity after `put`, as a closed formula (the duplicate check
does not touch the capacity; only the resize attempt can). -/
theorem put_bucketCount_formula (allocOk : Bool) (t : SymTable V) (k : Key) (v : V) :
    (SymTable_put allocOk t k v).2.bucketCount =
      if 4 * t.nodeQuantity > 3 * t.bucketCount
      then (symtablehash_resizeHashTable allocOk t).bucketCount
      else t.bucketCount := by
  by_cases hload : 4 * t.nodeQuantity > 3 * t.bucketCount
  · rw [if_pos hload]
    simp only [SymTable_put, if_pos hload]
    by_cases hc : chainContains k
        ((symtablehash_resizeHashTable allocOk t).buckets.getD
          (symtablehash_hashFunction k (symtablehash_resizeHashTable allocOk t).bucketCount) []) = true
    · rw [if_pos hc]
    · rw [if_neg hc]
  · rw [if_neg hload]
    exact (put_noResize_cap hload allocOk k v).1

/-- The prime index after `put`, same shape. -/
theorem put_primeIndex_formula (allocOk : Bool) (t : SymTable V) (k : Key) (v : V) :
    (SymTable_put allocOk t k v).2.currentPrimeIndex =
      if 4 * t.nodeQuantity > 3 * t.bucketCount
      then (symtablehash_resizeHashTable allocOk t).currentPrimeIndex
      else t.currentPrimeIndex := by
  by_cases hload : 4 * t.nodeQuantity > 3 * t.bucketCount
  · rw [if_pos hload]
    simp only [SymTable_put, if_pos hload]
    by_cases hc : chainContains k
        ((symtablehash_resizeHashTable allocOk t).buckets.getD
          (symtablehash_hashFunction k (symtablehash_resizeHashTable allocOk t).bucketCount) []) = true
    · rw [if_pos hc]
    · rw [if_neg hc]
  · rw [if_neg hload]
    exact (put_noResize_cap hload allocOk k v).2

/-! ### The singly-linked-list variant (`symtablelist.c`) -/

/-- The C `struct SymTable` of `symtablelist.c`: the head of the node list
plus the binding count. -/
structure SymTableList (V : Type) where
  psFirstNode : List (SymTableNode V)
  nodeQuantity : Nat
deriving DecidableEq

/-- The function `SymTable_new` of `symtablelist.c`. -/
def SymTableList_new (V : Type) : SymTableList V :=
  { psFirstNode := [], nodeQuantity := 0 }

/-- The function `SymTable_getLength` of `symtablelist.c`. -/
def SymTableList_getLength (t : SymTableList V) : Nat := t.nodeQuantity

/-- The function `SymTable_put` of `symtablelist.c`: walk the whole list looking for
a duplicate; otherwise allocate a node, copy the key, and link it in at
the front (`psNewNode->psNextNode = oSymTable->psFirstNode;
oSymTable->psFirstNode = psNewNode;`). -/
def SymTableList_put (t : SymTableList V) (pcKey : Key) (pvValue : V) :
    Nat × SymTableList V :=
  if chainContains pcKey t.psFirstNode then (0, t)
  else
    (1, { psFirstNode := ⟨pcKey, pvValue⟩ :: t.psFirstNode
          nodeQuantity := t.nodeQuantity + 1 })

/-- The function `SymTable_map` of `symtablelist.c`, modelled by its call trace: the
loop walks from the head and applies the callback to each node in list
order, passing `pvExtra` through on every call. -/
def SymTableList_map (t : SymTableList V) (pvExtra : E) : List (Key × V × E) :=
  t.psFirstNode.map (fun node => (node.pcKey, node.pvValue, pvExtra))

/-- Run a sequence of `put` calls against the list variant. -/
def runListPuts (t : SymTableList V) : List (Key × V) → List Nat × SymTableList V
  | [] => ([], t)
  | kv :: rest =>
    let r := SymTableList_put t kv.1 kv.2
    let rr := runListPuts r.2 rest
    (r.1 :: rr.1, rr.2)

/-- Successful distinct-key puts on the list variant stack the new
nodes at the front, so the final list is the reverse of insertion
order, followed by whatever was already there. -/
theorem runListPuts_spec :
    ∀ (kvs : List (Key × V)) (t : SymTableList V),
      (kvs.map Prod.fst).Nodup →
      (∀ kv ∈ kvs, ∀ n ∈ t.psFirstNode, n.pcKey ≠ kv.1) →
      (runListPuts t kvs).1 = List.replicate kvs.length 1 ∧
      (runListPuts t kvs).2.psFirstNode =
        (kvs.reverse).map (fun kv => (⟨kv.1, kv.2⟩ : SymTableNode V)) ++ t.psFirstNode ∧
      (runListPuts t kvs).2.nodeQuantity = t.nodeQuantity + kvs.length
  | [], t, _, _ => ⟨rfl, by simp [runListPuts], rfl⟩
  | (k, v) :: kvs, t, hnodup, hdisj => by
    have hc : chainContains k t.psFirstNode = false :=
      chainContains_eq_false_iff.2 fun n hn => hdisj (k, v) (List.mem_cons_self _ _) n hn
    have hput : SymTableList_put t k v =
        (1, { psFirstNode := (⟨k, v⟩ : SymTableNode V) :: t.psFirstNode
              nodeQuantity := t.nodeQuantity + 1 }) := by
      rw [SymTableList_put, if_neg (by rw [hc]; simp)]
    have hk_notin : k ∉ kvs.map Prod.fst := by
      rw [List.map_cons] at hnodup
      exact (List.nodup_cons.1 hnodup).1
    have hdisj' : ∀ kv ∈ kvs,
        ∀ n ∈ ((⟨k, v⟩ : SymTableNode V) :: t.psFirstNode), n.pcKey ≠ kv.1 := by
      intro kv hkv n hn
      rcases List.mem_cons.1 hn with rfl | hmem
      · show k ≠ kv.1
        intro hkk
        exact hk_notin (hkk ▸ List.mem_map.2 ⟨kv, hkv, rfl⟩)
      · exact hdisj kv (List.mem_cons_of_mem _ hkv) n hmem
    obtain ⟨hr1, hrfst, hrcount⟩ := runListPuts_spec kvs
      { psFirstNode := (⟨k, v⟩ : SymTableNode V) :: t.psFirstNode
        nodeQuantity := t.nodeQuantity + 1 }
      (by rw [List.map_cons] at hnodup; exact (List.nodup_cons.1 hnodup).2) hdisj'
    simp only [runListPuts, hput]
    refine ⟨?_, ?_, ?_⟩
    · rw [List.length_cons, List.replicate_succ, hr1]
    · rw [hrfst]
      simp
    · rw [hrcount, List.length_cons]
      show t.nodeQuantity + 1 + kvs.length = t.nodeQuantity + (kvs.length + 1)
      omega

/-! ### A concrete 381-binding table, reached by 381 put calls -/

/-- Two-byte keys; `cxKey` is injective because the two bytes are the
quotient and the remainder of `i` by 250. -/
def cxKey (i : Nat) : Key := [i / 250 + 1, i % 250 + 1]

/-- A list of `count` pairwise-distinct key/value pairs. -/
def cxPairs (count : Nat) : List (Key × Nat) :=
  (List.range count).map (fun i => (cxKey i, 0))

/-- The table after 381 distinct-key puts on a fresh table. -/
def t381 : SymTable Nat := (runPuts (SymTable_new Nat) (cxPairs 381)).2

/-- A key distinct from every `cxKey i` with `i < 500` (its first byte
is 3, theirs is 1 or 2). -/
def cxFreshKey : Key := [3, 1]

/-- The table after one more successful put: 382 bindings. -/
def t382 : SymTable Nat := (SymTable_put true t381 cxFreshKey 0).2

theorem t381_eq : t381 = (runPuts (SymTable_new Nat) (cxPairs 381)).2 := rfl

theorem t382_eq : t382 = (SymTable_put true t381 cxFreshKey 0).2 := rfl

theorem cxKey_injective : Function.Injective cxKey := by
  intro i j h
  simp only [cxKey, List.cons.injEq] at h
  omega

theorem cxPairs_keysNodup (n : Nat) : ((cxPairs n).map Prod.fst).Nodup := by
  rw [cxPairs, List.map_map]
  exact List.Nodup.map (fun i j h => cxKey_injective h) (List.nodup_range n)

theorem cxPairs_length (n : Nat) : (cxPairs n).length = n := by
  simp [cxPairs]

theorem cxPairs_disj_new (n : Nat) :
    ∀ kv ∈ cxPairs n, ∀ node ∈ bindings (SymTable_new Nat), node.pcKey ≠ kv.1 := by
  intro kv _ node hnode
  rw [bindings_new] at hnode
  cases hnode

theorem t381_WF : WF t381 := by
  rw [t381_eq]
  exact (runPuts_spec (cxPairs 381) (SymTable_new Nat) WF_new (cxPairs_keysNodup 381)
    (cxPairs_disj_new 381)).2.1

theorem t381_bindings :
    List.Perm (bindings t381)
      ((cxPairs 381).map (fun kv => (⟨kv.1, kv.2⟩ : SymTableNode Nat))) := by
  rw [t381_eq]
  refine ((runPuts_spec (cxPairs 381) (SymTable_new Nat) WF_new (cxPairs_keysNodup 381)
    (cxPairs_disj_new 381)).2.2.1).trans ?_
  rw [bindings_new, List.append_nil]

theorem t381_noResize :
    t381.bucketCount = 509 ∧ t381.currentPrimeIndex = 0 ∧ t381.nodeQuantity = 381 := by
  rw [t381_eq]
  obtain ⟨h1, h2, h3⟩ := runPuts_noResize (cxPairs 381) (SymTable_new Nat) WF_new
    (cxPairs_keysNodup 381) (cxPairs_disj_new 381) (by rw [cxPairs_length]; decide)
  refine ⟨?_, ?_, ?_⟩
  · rw [h1]
    decide
  · rw [h2]
    decide
  · rw [h3, cxPairs_length]
    decide

/-- The fresh key is under none of the bindings of `t381`. -/
theorem t381_fresh_absent : ∀ node ∈ bindings t381, node.pcKey ≠ cxFreshKey := by
  intro node hnode
  have hmem := t381_bindings.mem_iff.1 hnode
  obtain ⟨kv, hkv, hnodeEq⟩ := List.mem_map.1 hmem
  obtain ⟨i, hi, hkvEq⟩ := List.mem_map.1 hkv
  have hiRange : i < 381 := List.mem_range.1 hi
  subst hnodeEq
  subst hkvEq
  intro heq
  simp only [cxKey, cxFreshKey, List.cons.injEq] at heq
  omega

theorem t382_facts :
    (SymTable_put true t381 cxFreshKey 0).1 = 1 ∧ WF t382 ∧
    List.Perm (bindings t382) ((⟨cxFreshKey, 0⟩ : SymTableNode Nat) :: bindings t381) ∧
    t382.nodeQuantity = 382 ∧ t382.bucketCount = 509 ∧ t382.currentPrimeIndex = 0 := by
  obtain ⟨h1, hWF, hperm, hcount, _⟩ :=
    put_absent_spec t381_WF true (0 : Nat) t381_fresh_absent
  have hnores : ¬ 4 * t381.nodeQuantity > 3 * t381.bucketCount := by
    rw [t381_noResize.2.2, t381_noResize.1]
    decide
  obtain ⟨hcap, hidx⟩ := put_noResize_cap hnores true cxFreshKey (0 : Nat)
  refine ⟨h1, ?_, ?_, ?_, ?_, ?_⟩
  · rw [t382_eq]
    exact hWF
  · rw [t382_eq]
    exact hperm
  · rw [t382_eq, hcount, t381_noResize.2.2]
  · rw [t382_eq, hcap, t381_noResize.1]
  · rw [t382_eq, hidx, t381_noResize.2.1]

/-- The key `cxKey 0` is bound in `t382`. -/
theorem t382_contains_cxKey0 : SymTable_contains t382 (cxKey 0) = 1 := by
  refine (contains_eq_one_iff t382_facts.2.1).2 ?_
  refine ⟨⟨cxKey 0, 0⟩, ?_, rfl⟩
  refine t382_facts.2.2.1.mem_iff.2 ?_
  refine List.mem_cons_of_mem _ ?_
  refine t381_bindings.mem_iff.2 ?_
  exact List.mem_map.2 ⟨(cxKey 0, 0),
    List.mem_map.2 ⟨0, List.mem_range.2 (by decide), rfl⟩, rfl⟩

/-! ### The reference hash of the specification -/

/-- The specification's reference fold for the hash (spec section 4.1):
seed the accumulator at 0 and for each byte of the key replace the
accumulator by `(accumulator <<< 5) + byte` under wraparound modulo
`2 ^ 32`.  Stated from the spec's words, to be compared with the
source's `symtablehash_hashFunction`. -/
def specHashFold (key : Key) : Nat :=
  key.foldl (fun acc b => ((acc <<< 5) + b) % 2 ^ 32) 0

theorem hashLoop_eq_foldl :
    ∀ (key : Key) (acc : Nat),
      hashLoop acc key = key.foldl (fun acc b => ((acc <<< 5) + b) % 2 ^ 32) acc
  | [], _ => rfl
  | _c :: rest, _acc => hashLoop_eq_foldl rest _

/-- A small example table used by several witnesses: one binding
`[1] ↦ 5` inserted into a fresh table. -/
def tExample : SymTable Nat := (SymTable_put true (SymTable_new Nat) [1] 5).2

theorem tExample_WF : WF tExample := put_WF WF_new true [1] 5

/-! ### The claims -/

/-- Claim C1: for every sequence of `SymTable_put` calls with pairwise
distinct keys on a freshly created table, every put returns 1,
`SymTable_getLength` afterwards equals the number of keys inserted, and
for every inserted key `SymTable_contains` returns true (1) and
`SymTable_get` returns exactly the value supplied at its insertion. -/
theorem C1_put_sequence (V : Type) (kvs : List (Key × V))
    (hnodup : (kvs.map Prod.fst).Nodup) :
    (runPuts (SymTable_new V) kvs).1 = List.replicate kvs.length 1 ∧
    SymTable_getLength (runPuts (SymTable_new V) kvs).2 = kvs.length ∧
    ∀ kv ∈ kvs, SymTable_contains (runPuts (SymTable_new V) kvs).2 kv.1 = 1 ∧
      SymTable_get (runPuts (SymTable_new V) kvs).2 kv.1 = some kv.2 := by
  obtain ⟨h1, hWF, hperm, _⟩ := runPuts_spec kvs (SymTable_new V) WF_new hnodup
    (fun kv _ n hn => by rw [bindings_new] at hn; cases hn)
  refine ⟨h1, ?_, ?_⟩
  · rw [SymTable_getLength, hWF.countEq, hperm.length_eq]
    simp [bindings_new]
  · intro kv hkv
    have hmem : (⟨kv.1, kv.2⟩ : SymTableNode V) ∈ bindings (runPuts (SymTable_new V) kvs).2 := by
      refine hperm.mem_iff.2 ?_
      rw [bindings_new, List.append_nil]
      exact List.mem_map.2 ⟨kv, hkv, rfl⟩
    exact ⟨(contains_eq_one_iff hWF).2 ⟨_, hmem, rfl⟩, (get_eq_some_iff hWF).2 hmem⟩

theorem C1_witness :
    ((([([1], 10), ([2], 20)] : List (Key × Nat)).map Prod.fst).Nodup) ∧
    ((runPuts (SymTable_new Nat) [([1], 10), ([2], 20)]).1 =
        List.replicate ([([1], 10), ([2], 20)] : List (Key × Nat)).length 1 ∧
      SymTable_getLength (runPuts (SymTable_new Nat) [([1], 10), ([2], 20)]).2 =
        ([([1], 10), ([2], 20)] : List (Key × Nat)).length ∧
      ∀ kv ∈ ([([1], 10), ([2], 20)] : List (Key × Nat)),
        SymTable_contains (runPuts (SymTable_new Nat) [([1], 10), ([2], 20)]).2 kv.1 = 1 ∧
        SymTable_get (runPuts (SymTable_new Nat) [([1], 10), ([2], 20)]).2 kv.1 = some kv.2) :=
  ⟨by decide, C1_put_sequence Nat [([1], 10), ([2], 20)] (by decide)⟩

/-- Claim C2: resizing is lossless.  On a table satisfying the
structural invariants, the growth procedure leaves the binding count
unchanged, keeps exactly the same bindings (the list of bindings of the
result is a permutation of the original one: the nodes are relinked,
none is lost, duplicated or altered), and every key retrievable before
is retrievable afterwards with the same value. -/
theorem C2_resize_lossless (V : Type) (t : SymTable V) (allocOk : Bool) (hWF : WF t) :
    (symtablehash_resizeHashTable allocOk t).nodeQuantity = t.nodeQuantity ∧
    SymTable_getLength (symtablehash_resizeHashTable allocOk t) = SymTable_getLength t ∧
    List.Perm (bindings (symtablehash_resizeHashTable allocOk t)) (bindings t) ∧
    (∀ k v, SymTable_get t k = some v →
      SymTable_get (symtablehash_resizeHashTable allocOk t) k = some v) := by
  obtain ⟨hWF2, hperm, hcount, _⟩ := resize_spec hWF allocOk
  refine ⟨hcount, hcount, hperm, ?_⟩
  intro k v hv
  rw [get_eq_of_bindings_perm hWF hWF2 hperm k]
  exact hv

theorem C2_witness :
    WF tExample ∧
    ((symtablehash_resizeHashTable true tExample).nodeQuantity = tExample.nodeQuantity ∧
      SymTable_getLength (symtablehash_resizeHashTable true tExample) =
        SymTable_getLength tExample ∧
      List.Perm (bindings (symtablehash_resizeHashTable true tExample)) (bindings tExample) ∧
      (∀ k v, SymTable_get tExample k = some v →
        SymTable_get (symtablehash_resizeHashTable true tExample) k = some v)) :=
  ⟨tExample_WF, C2_resize_lossless Nat tExample true tExample_WF⟩

/-- Counterexample refuting claim C3 as stated: at the reachable table
`t381` (381 bindings, capacity 509, smallest prime index), the next
insertion is successful and `(count + 1) / capacity` exceeds 0.75 (as
`4 * (381 + 1) > 3 * 509`) while a larger prime remains, yet the
table does not grow: the capacity stays 509.  The code's actual
trigger is `count / capacity > 0.75`, an off-by-one against the
claim. -/
theorem C3_counterexample :
    SymTable_getLength t381 = 381 ∧
    t381.bucketCount = 509 ∧
    t381.currentPrimeIndex + 1 < PRIME_COUNT ∧
    4 * (SymTable_getLength t381 + 1) > 3 * t381.bucketCount ∧
    (SymTable_put true t381 cxFreshKey 0).1 = 1 ∧
    (SymTable_put true t381 cxFreshKey 0).2.bucketCount = 509 := by
  have hlen : SymTable_getLength t381 = 381 := t381_noResize.2.2
  refine ⟨hlen, t381_noResize.1, ?_, ?_, t382_facts.1, ?_⟩
  · rw [t381_noResize.2.1]
    decide
  · rw [hlen, t381_noResize.1]
    decide
  · rw [← t382_eq]
    exact t382_facts.2.2.2.2.1

/-- Claim C3 as amended: the table grows to the next prime capacity
exactly when the load factor test `count / capacity > 0.75` (that is,
`4 * count > 3 * capacity`, with `count` the binding count before the
insertion) fires at the start of the put call, a larger prime remains,
and the new bucket array can be allocated; the growth is strict.  When
the prime sequence is exhausted or the allocation fails, the resize
procedure leaves the table completely unchanged, and the insertion
still proceeds at the current capacity: put succeeds exactly on absent
keys, regardless of the resize outcome. -/
theorem C3_growth_trigger (V : Type) (allocOk : Bool) (t : SymTable V) (k : Key) (v : V)
    (hWF : WF t) :
    ((SymTable_put allocOk t k v).2.bucketCount =
      if 4 * t.nodeQuantity > 3 * t.bucketCount ∧ t.currentPrimeIndex + 1 < PRIME_COUNT ∧
          allocOk = true
      then primes.getD (t.currentPrimeIndex + 1) 0
      else t.bucketCount) ∧
    (4 * t.nodeQuantity > 3 * t.bucketCount → t.currentPrimeIndex + 1 < PRIME_COUNT →
      allocOk = true → t.bucketCount < (SymTable_put allocOk t k v).2.bucketCount) ∧
    (t.currentPrimeIndex + 1 ≥ PRIME_COUNT → symtablehash_resizeHashTable allocOk t = t) ∧
    (symtablehash_resizeHashTable false t = t) ∧
    ((SymTable_put allocOk t k v).1 = 1 ↔ SymTable_contains t k = 0) := by
  have hformula : (SymTable_put allocOk t k v).2.bucketCount =
      if 4 * t.nodeQuantity > 3 * t.bucketCount ∧ t.currentPrimeIndex + 1 < PRIME_COUNT ∧
          allocOk = true
      then primes.getD (t.currentPrimeIndex + 1) 0
      else t.bucketCount := by
    rw [put_bucketCount_formula]
    by_cases hload : 4 * t.nodeQuantity > 3 * t.bucketCount
    · rw [if_pos hload, resize_bucketCount]
      by_cases hrest : t.currentPrimeIndex + 1 < PRIME_COUNT ∧ allocOk = true
      · rw [if_pos hrest, if_pos ⟨hload, hrest⟩]
      · rw [if_neg hrest, if_neg (by intro hall; exact hrest ⟨hall.2.1, hall.2.2⟩)]
    · rw [if_neg hload, if_neg (by intro hall; exact hload hall.1)]
  refine ⟨hformula, ?_, resize_of_exhausted allocOk, resize_of_allocFail t, ?_⟩
  · intro hload hprime hok
    rw [hformula, if_pos ⟨hload, hprime, hok⟩, hWF.capEq]
    exact primes_getD_strictAscending _ (by rw [PRIME_COUNT] at hprime ⊢; omega)
  · cases hget : SymTable_get t k with
    | some v₀ =>
      have hp := put_present_spec hWF allocOk v ⟨⟨k, v₀⟩, (get_eq_some_iff hWF).1 hget, rfl⟩
      have hc1 : SymTable_contains t k = 1 :=
        (contains_eq_one_iff hWF).2 ⟨⟨k, v₀⟩, (get_eq_some_iff hWF).1 hget, rfl⟩
      rw [hp.1, hc1]
      simp
    | none =>
      have hp := put_absent_spec hWF allocOk v ((get_eq_none_iff hWF).1 hget)
      have hc0 : SymTable_contains t k = 0 :=
        (contains_eq_zero_iff hWF).2 ((get_eq_none_iff hWF).1 hget)
      rw [hp.1, hc0]
      simp

theorem C3_witness :
    WF (SymTable_new Nat) ∧
    (((SymTable_put true (SymTable_new Nat) [1] 5).2.bucketCount =
      if 4 * (SymTable_new Nat).nodeQuantity > 3 * (SymTable_new Nat).bucketCount ∧
          (SymTable_new Nat).currentPrimeIndex + 1 < PRIME_COUNT ∧ (true = true)
      then primes.getD ((SymTable_new Nat).currentPrimeIndex + 1) 0
      else (SymTable_new Nat).bucketCount) ∧
    (4 * (SymTable_new Nat).nodeQuantity > 3 * (SymTable_new Nat).bucketCount →
      (SymTable_new Nat).currentPrimeIndex + 1 < PRIME_COUNT → (true = true) →
      (SymTable_new Nat).bucketCount < (SymTable_put true (SymTable_new Nat) [1] 5).2.bucketCount) ∧
    ((SymTable_new Nat).currentPrimeIndex + 1 ≥ PRIME_COUNT →
      symtablehash_resizeHashTable true (SymTable_new Nat) = (SymTable_new Nat)) ∧
    (symtablehash_resizeHashTable false (SymTable_new Nat) = (SymTable_new Nat)) ∧
    ((SymTable_put true (SymTable_new Nat) [1] 5).1 = 1 ↔
      SymTable_contains (SymTable_new Nat) [1] = 0)) :=
  ⟨WF_new, C3_growth_trigger Nat true (SymTable_new Nat) [1] 5 WF_new⟩

/-- Claim C4: every table reachable from a fresh table by put, replace
and remove (map does not mutate) satisfies the structural invariants:
keys unique across the table, stored count equal to the number of
bindings on all chains, every binding in the chain of its hash index,
capacity drawn from the fixed prime table; and no operation ever
shrinks the capacity. -/
theorem C4_invariants (V : Type) (t : SymTable V) (h : Reachable t) :
    ((bindings t).map SymTableNode.pcKey).Nodup ∧
    SymTable_getLength t = (bindings t).length ∧
    (∀ i, i < t.buckets.length → ∀ node ∈ t.buckets.getD i [],
      symtablehash_hashFunction node.pcKey t.bucketCount = i) ∧
    t.bucketCount ∈ primes ∧
    (∀ allocOk k v, t.bucketCount ≤ (SymTable_put allocOk t k v).2.bucketCount) ∧
    (∀ k v, (SymTable_replace t k v).2.bucketCount = t.bucketCount) ∧
    (∀ k, (SymTable_remove t k).2.bucketCount = t.bucketCount) := by
  have hWF := h.toWF
  refine ⟨hWF.keysNodup, hWF.countEq, hWF.placement, ?_, ?_, ?_, ?_⟩
  · rw [hWF.capEq]
    exact primes_getD_mem _ hWF.primeIndexLt
  · intro allocOk k v
    exact put_cap_mono hWF allocOk k v
  · intro k v
    exact (replace_WF hWF k v).2.1
  · intro k
    exact (remove_WF hWF k).2

theorem C4_witness :
    Reachable (SymTable_new Nat) ∧
    (((bindings (SymTable_new Nat)).map SymTableNode.pcKey).Nodup ∧
    SymTable_getLength (SymTable_new Nat) = (bindings (SymTable_new Nat)).length ∧
    (∀ i, i < (SymTable_new Nat).buckets.length →
      ∀ node ∈ (SymTable_new Nat).buckets.getD i [],
        symtablehash_hashFunction node.pcKey (SymTable_new Nat).bucketCount = i) ∧
    (SymTable_new Nat).bucketCount ∈ primes ∧
    (∀ allocOk k v, (SymTable_new Nat).bucketCount ≤
      (SymTable_put allocOk (SymTable_new Nat) k v).2.bucketCount) ∧
    (∀ k v, (SymTable_replace (SymTable_new Nat) k v).2.bucketCount =
      (SymTable_new Nat).bucketCount) ∧
    (∀ k, (SymTable_remove (SymTable_new Nat) k).2.bucketCount =
      (SymTable_new Nat).bucketCount)) :=
  ⟨Reachable.new, C4_invariants Nat (SymTable_new Nat) Reachable.new⟩

/-- Counterexample refuting claim C5 as stated: at the reachable table
`t382` (382 bindings, capacity 509), `put` of the already-present key
`cxKey 0` returns 0 — but it does not leave the table entirely
unmutated: the load-factor check runs before the duplicate check, so
the capacity advances from 509 to 1021. -/
theorem C5_counterexample :
    SymTable_contains t382 (cxKey 0) = 1 ∧
    (SymTable_put true t382 (cxKey 0) 5).1 = 0 ∧
    t382.bucketCount = 509 ∧
    (SymTable_put true t382 (cxKey 0) 5).2.bucketCount = 1021 := by
  have hpres := (contains_eq_one_iff t382_facts.2.1).1 t382_contains_cxKey0
  refine ⟨t382_contains_cxKey0, (put_present_spec t382_facts.2.1 true 5 hpres).1,
    t382_facts.2.2.2.2.1, ?_⟩
  rw [put_bucketCount_formula, if_pos (by rw [t382_facts.2.2.2.1, t382_facts.2.2.2.2.1]; decide),
    resize_bucketCount, if_pos ⟨by rw [t382_facts.2.2.2.2.2]; decide, rfl⟩,
    t382_facts.2.2.2.2.2]
  decide

/-- Claim C5 as amended: `put` with an already-bound key returns 0 and
does not insert or overwrite — the binding count, the set of bindings,
and the value observed by `get` for every key are unchanged; however
the load-factor check still runs first, so the bucket array may be
resized (the capacity may advance to the next prime) even though the
insertion fails. -/
theorem C5_put_present (V : Type) (allocOk : Bool) (t : SymTable V) (k : Key) (v : V)
    (hWF : WF t) (hpres : SymTable_contains t k = 1) :
    (SymTable_put allocOk t k v).1 = 0 ∧
    SymTable_getLength (SymTable_put allocOk t k v).2 = SymTable_getLength t ∧
    (∀ k₂, SymTable_get (SymTable_put allocOk t k v).2 k₂ = SymTable_get t k₂) ∧
    List.Perm (bindings (SymTable_put allocOk t k v).2) (bindings t) := by
  have hex := (contains_eq_one_iff hWF).1 hpres
  obtain ⟨h0, hWF2, hperm, hcount, _⟩ := put_present_spec hWF allocOk v hex
  exact ⟨h0, hcount, fun k₂ => get_eq_of_bindings_perm hWF hWF2 hperm k₂, hperm⟩

theorem C5_witness :
    (WF tExample ∧ SymTable_contains tExample [1] = 1) ∧
    ((SymTable_put true tExample [1] 7).1 = 0 ∧
    SymTable_getLength (SymTable_put true tExample [1] 7).2 = SymTable_getLength tExample ∧
    (∀ k₂, SymTable_get (SymTable_put true tExample [1] 7).2 k₂ = SymTable_get tExample k₂) ∧
    List.Perm (bindings (SymTable_put true tExample [1] 7).2) (bindings tExample)) :=
  ⟨⟨tExample_WF, by decide⟩,
    C5_put_present Nat true tExample [1] 7 tExample_WF (by decide)⟩

/-- Claim C6: on a table satisfying the invariants, `remove` of a
present key returns the bound value, afterwards `contains` for that key
is 0 and the length has decreased by exactly one; `remove` of an absent
key returns the NULL sentinel (`none`) and leaves the table unchanged,
in particular the length is unchanged. -/
theorem C6_remove (V : Type) (t : SymTable V) (k : Key) (hWF : WF t) :
    (∀ v, SymTable_get t k = some v →
      (SymTable_remove t k).1 = some v ∧
      SymTable_contains (SymTable_remove t k).2 k = 0 ∧
      SymTable_getLength (SymTable_remove t k).2 + 1 = SymTable_getLength t) ∧
    (SymTable_get t k = none → SymTable_remove t k = (none, t)) := by
  constructor
  · intro v hget
    obtain ⟨h1, _, _, hcount, hcontains, _, _⟩ := remove_present_get hWF hget
    exact ⟨h1, hcontains, hcount⟩
  · exact remove_absent_spec

theorem C6_witness :
    WF tExample ∧ SymTable_get tExample [1] = some 5 ∧
    ((SymTable_remove tExample [1]).1 = some 5 ∧
      SymTable_contains (SymTable_remove tExample [1]).2 [1] = 0 ∧
      SymTable_getLength (SymTable_remove tExample [1]).2 + 1 = SymTable_getLength tExample) ∧
    SymTable_remove tExample [2] = (none, tExample) :=
  ⟨tExample_WF, by decide,
    (C6_remove Nat tExample [1] tExample_WF).1 5 (by decide),
    (C6_remove Nat tExample [2] tExample_WF).2 (by decide)⟩

/-- Claim C7: `replace` of a present key returns the prior value and
updates only that binding's value field: the selected chain differs
only in that node's value (same key storage, same neighbours), every
other bucket is untouched, `get` of the key thereafter returns the new
value, `get` of every other key is unchanged, and the length and the
capacity are unchanged.  `replace` of an absent key returns the NULL
sentinel (`none`) and leaves the whole table unchanged. -/
theorem C7_replace (V : Type) (t : SymTable V) (k : Key) (vNew : V) :
    (∀ old, SymTable_get t k = some old →
      (SymTable_replace t k vNew).1 = some old ∧
      SymTable_get (SymTable_replace t k vNew).2 k = some vNew ∧
      (∀ k₂, k₂ ≠ k → SymTable_get (SymTable_replace t k vNew).2 k₂ = SymTable_get t k₂) ∧
      SymTable_getLength (SymTable_replace t k vNew).2 = SymTable_getLength t ∧
      (SymTable_replace t k vNew).2.bucketCount = t.bucketCount ∧
      (∃ pre suf,
        t.buckets.getD (symtablehash_hashFunction k t.bucketCount) [] =
          pre ++ (⟨k, old⟩ : SymTableNode V) :: suf ∧
        (SymTable_replace t k vNew).2.buckets.getD
            (symtablehash_hashFunction k t.bucketCount) [] =
          pre ++ (⟨k, vNew⟩ : SymTableNode V) :: suf) ∧
      (∀ j, j ≠ symtablehash_hashFunction k t.bucketCount →
        (SymTable_replace t k vNew).2.buckets.getD j [] = t.buckets.getD j [])) ∧
    (SymTable_get t k = none → SymTable_replace t k vNew = (none, t)) := by
  constructor
  · intro old hget
    obtain ⟨h1, h2, h3, h4, h5, h6, h7⟩ := replace_present_get vNew hget
    refine ⟨h1, h2, h3, h4, h5, ?_, h7⟩
    obtain ⟨pre, suf, hsplit, heq, _⟩ := replace_present_spec vNew hget
    refine ⟨pre, suf, hsplit, ?_⟩
    rw [heq]
    exact getD_set_self _ _ _ _ (idx_lt_of_get_some hget)
  · exact replace_absent_spec vNew

theorem C7_witness :
    SymTable_get tExample [1] = some 5 ∧
    ((SymTable_replace tExample [1] 7).1 = some 5 ∧
      SymTable_get (SymTable_replace tExample [1] 7).2 [1] = some 7) ∧
    SymTable_replace tExample [2] 7 = (none, tExample) :=
  ⟨by decide,
    ⟨((C7_replace Nat tExample [1] 7).1 5 (by decide)).1,
      ((C7_replace Nat tExample [1] 7).1 5 (by decide)).2.1⟩,
    (C7_replace Nat tExample [2] 7).2 (by decide)⟩

/-- Claim C8: on a table satisfying the invariants (the model is pure,
so the traversal cannot be mutated from under the loop), `SymTable_map`
invokes the callback exactly `getLength`-many times, exactly once per
current binding (its call trace is the bindings list, mapped), it
covers exactly the current key set, and every invocation passes the
caller's context argument through unchanged. -/
theorem C8_map_trace (V E : Type) (t : SymTable V) (e : E) (hWF : WF t) :
    (SymTable_map t e).length = SymTable_getLength t ∧
    SymTable_map t e = (bindings t).map (fun node => (node.pcKey, node.pvValue, e)) ∧
    (∀ k v, (k, v, e) ∈ SymTable_map t e ↔ SymTable_get t k = some v) ∧
    (∀ call ∈ SymTable_map t e, call.2.2 = e) := by
  refine ⟨?_, SymTable_map_eq t e, ?_, ?_⟩
  · rw [SymTable_map_eq, List.length_map, SymTable_getLength, hWF.countEq]
  · intro k v
    rw [SymTable_map_eq, get_eq_some_iff hWF]
    constructor
    · intro hmem
      obtain ⟨n, hn, heq⟩ := List.mem_map.1 hmem
      rw [Prod.mk.injEq, Prod.mk.injEq] at heq
      obtain ⟨hk, hv, -⟩ := heq
      have hnode : n = ⟨k, v⟩ := by rw [← hk, ← hv]
      rw [← hnode]
      exact hn
    · intro hmem
      exact List.mem_map.2 ⟨⟨k, v⟩, hmem, rfl⟩
  · intro call hcall
    rw [SymTable_map_eq] at hcall
    obtain ⟨n, _, heq⟩ := List.mem_map.1 hcall
    rw [← heq]

theorem C8_witness :
    WF tExample ∧
    ((SymTable_map tExample 0).length = SymTable_getLength tExample ∧
      SymTable_map tExample 0 =
        (bindings tExample).map (fun node => (node.pcKey, node.pvValue, (0 : Nat))) ∧
      (∀ k v, (k, v, (0 : Nat)) ∈ SymTable_map tExample 0 ↔ SymTable_get tExample k = some v) ∧
      (∀ call ∈ SymTable_map tExample (0 : Nat), call.2.2 = 0)) :=
  ⟨tExample_WF, C8_map_trace Nat Nat tExample 0 tExample_WF⟩

/-- Claim C9: the hash function is a pure total function of the key; it
agrees with the specification's reference fold (accumulator seeded at
0, each byte folded in by a 5-bit left shift and an addition, wrapping
modulo `2 ^ 32`) reduced modulo the bucket count; the empty string
hashes to 0; and the lookup operations consult exactly the chain at
index `hash(key) mod capacity`. -/
theorem C9_hash_function :
    (∀ (key : Key) (bucketCount : Nat),
      symtablehash_hashFunction key bucketCount = specHashFold key % bucketCount) ∧
    specHashFold [] = 0 ∧
    (∀ bucketCount : Nat, symtablehash_hashFunction [] bucketCount = 0) ∧
    (∀ (V : Type) (t : SymTable V) (k : Key),
      SymTable_get t k = chainGet k (t.buckets.getD (specHashFold k % t.bucketCount) []) ∧
      SymTable_contains t k =
        (if chainContains k (t.buckets.getD (specHashFold k % t.bucketCount) [])
         then 1 else 0)) := by
  have hagree : ∀ (key : Key) (bucketCount : Nat),
      symtablehash_hashFunction key bucketCount = specHashFold key % bucketCount := by
    intro key bucketCount
    rw [symtablehash_hashFunction, specHashFold, hashLoop_eq_foldl]
  refine ⟨hagree, rfl, fun bucketCount => by rw [hagree]; simp [specHashFold], ?_⟩
  intro V t k
  constructor
  · rw [SymTable_get, hagree]
  · rw [SymTable_contains, hagree]

/-- Implicit claim C10 (list variant): for every sequence of successful
`put` calls with distinct keys on the list implementation, `map`
invokes the callback on the bindings in exactly the reverse of
insertion order — put pushes each new node at the list head and map
walks the list from the head. -/
theorem C10_list_map_reverse (V E : Type) (kvs : List (Key × V)) (e : E)
    (hnodup : (kvs.map Prod.fst).Nodup) :
    (runListPuts (SymTableList_new V) kvs).1 = List.replicate kvs.length 1 ∧
    SymTableList_map (runListPuts (SymTableList_new V) kvs).2 e =
      (kvs.reverse).map (fun kv => (kv.1, kv.2, e)) := by
  obtain ⟨h1, hfst, _⟩ := runListPuts_spec kvs (SymTableList_new V) hnodup
    (fun kv _ n hn => by simp [SymTableList_new] at hn)
  refine ⟨h1, ?_⟩
  rw [SymTableList_map, hfst]
  simp [SymTableList_new, List.map_map]

theorem C10_witness :
    ((([([1], 10), ([2], 20)] : List (Key × Nat)).map Prod.fst).Nodup) ∧
    ((runListPuts (SymTableList_new Nat) [([1], 10), ([2], 20)]).1 =
        List.replicate ([([1], 10), ([2], 20)] : List (Key × Nat)).length 1 ∧
      SymTableList_map (runListPuts (SymTableList_new Nat) [([1], 10), ([2], 20)]).2 (0 : Nat) =
        (([([1], 10), ([2], 20)] : List (Key × Nat)).reverse).map
          (fun kv => (kv.1, kv.2, (0 : Nat)))) :=
  ⟨by decide, C10_list_map_reverse Nat Nat [([1], 10), ([2], 20)] 0 (by decide)⟩

end SymTableSpec
